import Mathlib

/-!
Shallow embedding of the genome codec in `src/genomics/compression.py`
(class `GenomeCompressor`), together with proofs settling the frozen
claims about it.

Modelling conventions, used consistently below:
* Python `str` values (sequences, chunks, pattern dictionary keys) are `List Char`;
  `bytes` values are `List Nat` with every element < 256.
* Python exceptions are an explicit `Err` value returned through `Except`.
* The external zlib byte compressor is a parameter (`deflate` on the
  compression side, `inflate : List Nat → Option (List Nat)` on the
  decompression side, `none` standing for `zlib.error`); every theorem
  that involves it is quantified over the parameter.  `zlib.crc32` and
  `base64` are modelled concretely.
* Recursion that Python drives by a cursor is expressed with an explicit
  fuel argument (always instantiated with a provably sufficient bound) so
  that every definition reduces inside the kernel.
-/

/-- Python exceptions raised by the codec:
`ValueError("Invalid genome sequence")`, the `TypeError` raised by
`sum` over lists, `ValueError("Checksum mismatch ...")`, `zlib.error`,
and `binascii.Error` from `base64.b64decode`. -/
inductive Err where
  | invalidSequence
  | typeError
  | checksumMismatch
  | zlibError
  | b64Error
deriving DecidableEq, Repr

/-- A Python string. -/
abbrev PyStr := List Char

/-- Python slice `s[i : i + n]` (for natural `i`, `n`), on strings and
bytes alike: drop `i`, take `n`, clamping at the end exactly as Python
slicing does. -/
def sliceStr (s : List α) (i n : Nat) : List α := (s.drop i).take n

/-- One step of Python `str.count`: scanning cursor `i`, counting
non-overlapping occurrences of `k` from left to right.  The fuel argument
only bounds the number of loop iterations; `pyCount` instantiates it with
`s.length + 1`, which is sufficient because the cursor strictly increases
and stays ≤ `s.length`. -/
def pyCountAux (s k : PyStr) : Nat → Nat → Nat
  | 0, _ => 0
  | fuel + 1, i =>
    if i + k.length ≤ s.length then
      if sliceStr s i k.length = k then 1 + pyCountAux s k fuel (i + k.length)
      else pyCountAux s k fuel (i + 1)
    else 0

/-- Python `s.count(k)`: the number of non-overlapping occurrences of `k`
in `s`, scanned greedily from the left (`s.count("")` is `len(s) + 1`). -/
def pyCount (s k : PyStr) : Nat :=
  if k.length = 0 then s.length + 1 else pyCountAux s k (s.length + 1) 0

/-- The pattern dictionary of `_find_patterns`: a Python `dict` from
pattern string to list of recorded start positions, kept in insertion
order as an association list. -/
abbrev PatDict := List (PyStr × List Nat)

/-- `patterns[pattern].append(i)` on a `defaultdict(list)`: append `i` to
the entry of `k`, creating the entry (at the end, matching Python dict
insertion order) if absent. -/
def dictAppend (d : PatDict) (k : PyStr) (i : Nat) : PatDict :=
  match d with
  | [] => [(k, [i])]
  | (k', v) :: rest =>
    if k' = k then (k', v ++ [i]) :: rest else (k', v) :: dictAppend rest k i

/-- The value stored under key `k` (Python `patterns[pattern]` read on a
`defaultdict(list)`: `[]` when the key is absent). -/
def dEntry (d : PatDict) (k : PyStr) : List Nat :=
  match d with
  | [] => []
  | (k', v) :: rest => if k' = k then v else dEntry rest k

/-- The key list of the dictionary, in insertion order. -/
def dKeys (d : PatDict) : List PyStr := d.map Prod.fst

/-- Body of the inner loop of `_find_patterns` at window length `L` and
start index `i`: record `i` under `sequence[i:i+L]` whenever
`sequence.count(pattern) > 1`. -/
def patternsStep (s : PyStr) (L : Nat) (d : PatDict) (i : Nat) : PatDict :=
  let pattern := sliceStr s i L
  if 1 < pyCount s pattern then dictAppend d pattern i else d

/-- Inner loop of `_find_patterns`: `for i in range(len(sequence) - length)`.
Note the bound really is `len - length` in the source, so the window
beginning at the final start position `len - length` is never examined. -/
def patternsForLength (s : PyStr) (d : PatDict) (L : Nat) : PatDict :=
  (List.range (s.length - L)).foldl (patternsStep s L) d

/-- `range(self.min_pattern_length, self.max_pattern_length + 1)` with the
constructor values `min_pattern_length = 8`, `max_pattern_length = 32`. -/
def patternLengths : List Nat := (List.range 25).map (· + 8)

/-- `GenomeCompressor._find_patterns`: accumulate positions over all window
lengths, then retain only the patterns with more than 2 recorded
positions (the final dict comprehension). -/
def findPatterns (s : PyStr) : PatDict :=
  (patternLengths.foldl (patternsForLength s) []).filter
    (fun kv => 2 < kv.2.length)

/-- Sum of the lengths of all recorded position lists
(`sum(len(positions) for positions in patterns.values())` in
`_is_highly_repetitive`). -/
def totalRepeats (s : PyStr) : Nat :=
  ((findPatterns s).map (fun kv => kv.2.length)).sum

/-- `GenomeCompressor._is_highly_repetitive`:
`total_repeats > len(sequence) * 0.3`.  The Python right-hand side is a
binary floating-point product; it is modelled as the exact rational
`len * (3/10)`.  For every length at which a theorem below evaluates this
predicate (4000), the float product is exactly representable as `1200.0`,
so the two readings agree there. -/
def isHighlyRepetitive (s : PyStr) : Bool :=
  decide ((totalRepeats s : ℚ) > (s.length : ℚ) * (3 / 10))

/-- Python `"..." * n` string repetition. -/
def pyRepeat (p : PyStr) (n : Nat) : PyStr := (List.replicate n p).flatten

/-- `GenomeCompressor._calculate_quality_scores`: for each position,
start from 30, add 5 when the base equals its immediate predecessor, add
3 when it equals the base two positions earlier, and cap the sum at 40.
The guarded reads `sequence[i-1]`, `sequence[i-2]` are modelled with
`List.getD`; the default is never reached because the guards `0 < i`,
`1 < i` keep the index in range. -/
def calcQuality (s : PyStr) : List Nat :=
  (List.range s.length).map (fun i =>
    let score := 30
    let score := if 0 < i ∧ s.getD i ' ' = s.getD (i - 1) ' ' then score + 5 else score
    let score := if 1 < i ∧ s.getD i ' ' = s.getD (i - 2) ' ' then score + 3 else score
    min score 40)

/-- The fixed 2-bit code of `_encode_sequence`
(`{'A': '00', 'C': '01', 'G': '10', 'T': '11'}` read with
`encoding.get(base, '00')`): any character other than A/C/G/T, notably
N, yields `00`. -/
def baseBits (c : Char) : List Nat :=
  if c = 'A' then [0, 0]
  else if c = 'C' then [0, 1]
  else if c = 'G' then [1, 0]
  else if c = 'T' then [1, 1]
  else [0, 0]

/-- The sequence part of the combined bitstring:
`''.join(encoding.get(base, '00') for base in sequence.upper())`.
`Char.toUpper` models `str.upper`, with which it agrees on every ASCII
character (in particular on the whole validated alphabet). -/
def seqBits (s : PyStr) : List Nat := (s.map (fun c => baseBits c.toUpper)).flatten

/-- `format(score, '08b')`: the 8-bit big-endian binary digits of a
score (< 256). -/
def toBits8 (q : Nat) : List Nat := (List.range 8).map (fun j => q / 2 ^ (7 - j) % 2)

/-- The quality part of the combined bitstring:
`''.join(format(score, '08b') for score in quality_scores)`. -/
def qualBits (s : PyStr) : List Nat := ((calcQuality s).map toBits8).flatten

/-- `int(combined, 2)`: the value of a big-endian bitstring. -/
def bitsToNat (bits : List Nat) : Nat := bits.foldl (fun a b => 2 * a + b) 0

/-- `value.to_bytes(k, byteorder='big')`: the `k` base-256 digits of the
value, most significant first (the value always fits in our uses). -/
def natToBytesBE (val : Nat) : Nat → List Nat
  | 0 => []
  | k + 1 => val / 256 ^ k % 256 :: natToBytesBE (val % 256 ^ k) k

/-- `GenomeCompressor._encode_sequence`: 2-bit base codes, then the
8-bit quality scores, packed with
`int(combined, 2).to_bytes((len(combined) + 7) // 8, byteorder='big')`.
(Python raises on `int('', 2)`; the model returns `[]` for the empty
sequence, which no claim touches — every chunk of a validated sequence
is nonempty.) -/
def encodeSequence (s : PyStr) : List Nat :=
  let combined := seqBits s ++ qualBits s
  natToBytesBE (bitsToNat combined) ((combined.length + 7) / 8)

/-- Grouping of a bitstring into big-endian bytes, 8 bits at a time
(used to state what the packing does; trailing bits that do not fill a
byte are dropped, a case that never arises below). -/
def bytesOfBits : List Nat → List Nat
  | b0 :: b1 :: b2 :: b3 :: b4 :: b5 :: b6 :: b7 :: rest =>
    bitsToNat [b0, b1, b2, b3, b4, b5, b6, b7] :: bytesOfBits rest
  | _ => []

/-- Modelled from the spec and claim C5 wording: the combined bitstring
with the FINAL byte "rounded up with zero bits", i.e. zero bits appended
at the end to reach a byte boundary, then packed big-endian.  This is
the packing the claim describes; `encodeSequence` (the code) instead
left-pads, see the C5 theorems. -/
def encodeClaimPadding (s : PyStr) : List Nat :=
  let combined := seqBits s ++ qualBits s
  bytesOfBits (combined ++ List.replicate ((8 - combined.length % 8) % 8) 0)

/-- `GenomeCompressor._calculate_error_rate`: count of non-ACGT
characters plus 0.1 per position equal to its predecessor, divided by
the length.  Python accumulates in binary floating point; the model uses
exact rationals (no theorem below depends on this field's value).
Python raises `ZeroDivisionError` on the empty sequence; the rational
division then yields 0, a case no claim touches. -/
def errorRateQ (s : PyStr) : ℚ :=
  let errors : ℚ := (s.countP (fun c => c ∉ (['A', 'C', 'G', 'T'] : List Char)) : ℚ)
    + ((List.range s.length).countP
        (fun i => 0 < i ∧ s.getD i ' ' = s.getD (i - 1) ' ') : ℚ) / 10
  errors / (s.length : ℚ)

/-- One bit step of the reflected CRC-32 (polynomial `0xEDB88320`). -/
def crcStepBit (c : Nat) : Nat :=
  if c % 2 = 1 then (c / 2) ^^^ 0xEDB88320 else c / 2

/-- `zlib.crc32(data)`: standard CRC-32 — initial register `0xFFFFFFFF`,
per byte xor-in followed by 8 reflected-polynomial bit steps, final
complement.  Matches CPython on the reference vectors
(`crc32(b"") = 0`, `crc32(b"a") = 0xE8B7BE43`). -/
def crc32 (data : List Nat) : Nat :=
  (data.foldl (fun c b => crcStepBit^[8] (c ^^^ b)) 0xFFFFFFFF) ^^^ 0xFFFFFFFF

/-- The base64 alphabet as byte values (`A..Z a..z 0..9 + /`). -/
def b64chars : List Nat :=
  ("ABCDEFGHIJKLMNOPQRSTUVWXYZabcdefghijklmnopqrstuvwxyz0123456789+/".toList).map Char.toNat

/-- `base64.b64encode`: 3 input bytes become 4 alphabet bytes; a final
group of 1 or 2 bytes is padded with `=` (byte 61). -/
def b64encode : List Nat → List Nat
  | [] => []
  | [x] => [b64chars.getD (x / 4) 0, b64chars.getD (x % 4 * 16) 0, 61, 61]
  | [x, y] =>
    [b64chars.getD (x / 4) 0, b64chars.getD (x % 4 * 16 + y / 16) 0,
     b64chars.getD (y % 16 * 4) 0, 61]
  | x :: y :: z :: rest =>
    b64chars.getD (x / 4) 0 :: b64chars.getD (x % 4 * 16 + y / 16) 0 ::
    b64chars.getD (y % 16 * 4 + z / 64) 0 :: b64chars.getD (z % 64) 0 ::
    b64encode rest

/-- The index of a byte in the base64 alphabet, if any. -/
def b64val (c : Nat) : Option Nat := b64chars.indexOf? c

/-- Decoding of cleaned base64 quads (padding `=` only in the last
quad). -/
def b64decodeQuads : List Nat → Except Err (List Nat)
  | [] => .ok []
  | a :: b :: c :: d :: rest =>
    match b64val a, b64val b with
    | some va, some vb =>
      if c = 61 ∧ d = 61 ∧ rest = [] then .ok [va * 4 + vb / 16]
      else
        match b64val c with
        | some vc =>
          if d = 61 ∧ rest = [] then .ok [va * 4 + vb / 16, vb % 16 * 16 + vc / 4]
          else
            match b64val d with
            | some vd =>
              match b64decodeQuads rest with
              | .ok tail =>
                .ok ((va * 4 + vb / 16) :: (vb % 16 * 16 + vc / 4) :: (vc % 4 * 64 + vd) :: tail)
              | .error e => .error e
            | none => .error .b64Error
        | none => .error .b64Error
    | _, _ => .error .b64Error
  | _ => .error .b64Error

/-- `base64.b64decode(blob)` (default lax mode): bytes outside the
alphabet and padding are discarded first, then the remaining quads are
decoded; a leftover group raises `binascii.Error`.  No theorem below
depends on the details: every decompression theorem is quantified over
the decoded buffer this can produce. -/
def b64decode (blob : List Nat) : Except Err (List Nat) :=
  b64decodeQuads (blob.filter (fun c => (b64val c).isSome || c = 61))

/-- `re.match(r'^[ACGTN]+$', u)` as a Boolean: one or more characters
from `{A,C,G,T,N}` spanning the string — except that Python `$` (without
`re.MULTILINE`) also matches just before a newline that is the last
character, so exactly one trailing `'\n'` after a nonempty ACGTN body is
accepted as well. -/
def matchesAcgtnRe (u : PyStr) : Bool :=
  let core := if u.getLast? = some '\n' then u.dropLast else u
  !core.isEmpty && core.all (fun c => c ∈ (['A', 'C', 'G', 'T', 'N'] : List Char))

/-- `GenomeCompressor._validate_sequence`: the regex test on
`sequence.upper()`, then the minimum-length test on the original
sequence. -/
def validateSequence (s : PyStr) : Bool :=
  if !matchesAcgtnRe (s.map Char.toUpper) then false
  else if s.length < 100 then false
  else true

/-- One chunking step of
`[genome_data[i:i + self.chunk_size] for i in range(0, len(genome_data), self.chunk_size)]`,
with fuel bounding the number of chunks (`chunksOf` passes the sequence
length, sufficient whenever `1 ≤ cs`; Python raises on step 0). -/
def chunksOfAux (cs : Nat) : Nat → PyStr → List PyStr
  | 0, _ => []
  | fuel + 1, s => if s.isEmpty then [] else s.take cs :: chunksOfAux cs fuel (s.drop cs)

/-- The chunk split performed by `GenomeCompressor.compress`. -/
def chunksOf (cs : Nat) (s : PyStr) : List PyStr := chunksOfAux cs s.length s

/-- The metadata dict built by `GenomeCompressor._compress_chunk`:
original length, detected patterns, CRC-32 of the PRE-compression
encoded bytes, quality scores, the literal tag `'adaptive'`, and the
error-rate estimate. -/
structure ChunkMd where
  original_length : Nat
  patterns : PatDict
  checksum : Nat
  quality_scores : List Nat
  compression_type : String
  error_rate : ℚ
deriving DecidableEq, Repr

/-- The metadata record `_compress_chunk` returns for one chunk. -/
def chunkMd (c : PyStr) : ChunkMd :=
  { original_length := c.length
    patterns := findPatterns c
    checksum := crc32 (encodeSequence c)
    quality_scores := calcQuality c
    compression_type := "adaptive"
    error_rate := errorRateQ c }

/-- `GenomeCompressor._compress_repetitive`: the "specialized" path is
`zlib.compress(data, level=9)`, the same generic compressor as the
other branch. -/
def compressRepetitive (deflate : List Nat → List Nat) (data : List Nat) : List Nat :=
  deflate data

/-- `GenomeCompressor._compress_chunk`: encode, detect patterns, pick the
compression branch on `_is_highly_repetitive` (both branches invoke the
same `deflate`), and assemble the metadata. -/
def pyCompressChunk (deflate : List Nat → List Nat) (c : PyStr) : List Nat × ChunkMd :=
  let encoded := encodeSequence c
  let compressed :=
    if isHighlyRepetitive c then compressRepetitive deflate encoded else deflate encoded
  (compressed, chunkMd c)

/-- The metadata list `compress` accumulates, one record per chunk in
chunk order (`executor.map` preserves submission order). -/
def metadataList (cs : Nat) (s : PyStr) : List ChunkMd := (chunksOf cs s).map chunkMd

/-- Python `sum(m['quality_scores'] for m in metadata_list)`: `sum`
starts from the integer 0 and the first addition `0 + [.. list ..]`
raises `TypeError: unsupported operand type(s) for +: 'int' and 'list'`
whenever the iterable is nonempty. -/
def pySumLists (ls : List (List Nat)) : Except Err Nat :=
  match ls with
  | [] => .ok 0
  | _ :: _ => .error .typeError

/-- The record `compress` appends to `self.compression_stats`
(`compression_time` is the literal 0.0, `algorithm` the literal
`'adaptive'`). -/
structure CompressionStats where
  original_size : Nat
  compressed_size : Nat
  compression_ratio : ℚ
  compression_time : ℚ
  algorithm : String
  quality_score : ℚ
  error_rate : ℚ
deriving DecidableEq, Repr

/-- `GenomeCompressor.compress`: validate, split into chunks, compress
each chunk (submission order preserved), merge, compute the logged
global checksum, base64-encode, then build the `CompressionStats`
record.  The record's `quality_score` argument evaluates
`sum(m['quality_scores'] for m in metadata_list)`, which raises
`TypeError` for every nonempty metadata list (see `pySumLists`), so the
arguments after it are never evaluated and nothing is ever appended to
the stats history.  On success the function would return the blob, the
metadata list and the appended stats record. -/
def pyCompress (deflate : List Nat → List Nat) (cs : Nat) (s : PyStr) :
    Except Err (List Nat × List ChunkMd × CompressionStats) :=
  if !validateSequence s then .error .invalidSequence
  else
    let chunks := chunksOf cs s
    let results := chunks.map (pyCompressChunk deflate)
    let mdl := results.map Prod.snd
    let finalCompressed := (results.map Prod.fst).flatten
    let _globalChecksum := crc32 finalCompressed
    let encoded := b64encode finalCompressed
    match pySumLists (mdl.map ChunkMd.quality_scores) with
    | .error e => .error e
    | .ok qsum =>
      let stats : CompressionStats :=
        { original_size := s.length
          compressed_size := encoded.length
          compression_ratio := (encoded.length : ℚ) / (s.length : ℚ)
          compression_time := 0
          algorithm := "adaptive"
          quality_score := (qsum : ℚ) / (mdl.length : ℚ)
          error_rate := ((mdl.map ChunkMd.error_rate).sum) / (mdl.length : ℚ) }
      .ok (encoded, mdl, stats)

/-- The condition of the non-fatal warning in `decompress`
(`if metadata['quality_scores'] and any(score < self.quality_threshold ...)`,
with `quality_threshold = 30`). -/
def triggersLowQualityWarning (m : ChunkMd) : Bool :=
  !m.quality_scores.isEmpty && m.quality_scores.any (fun q => q < 30)

/-- The chunk loop of `GenomeCompressor.decompress`: walk the metadata
in order with a cursor `pos` into the decoded buffer, slice
`decoded[pos : pos + original_length]` (the slicing bug: the stored
ORIGINAL length indexes the COMPRESSED buffer), inflate it
(`zlib.decompress`; both `compression_type` branches are this same
call), compare the recomputed CRC-32 with the stored checksum, and
concatenate.  A mismatch aborts the whole decode with
`ValueError` (ChecksumMismatch); nothing partial is returned. -/
def decodeChunks (inflate : List Nat → Option (List Nat)) (decoded : List Nat) :
    Nat → List ChunkMd → Except Err (List Nat)
  | _, [] => .ok []
  | pos, m :: rest =>
    let chunkData := sliceStr decoded pos m.original_length
    match inflate chunkData with
    | none => .error .zlibError
    | some d =>
      if crc32 d ≠ m.checksum then .error .checksumMismatch
      else
        match decodeChunks inflate decoded (pos + m.original_length) rest with
        | .error e => .error e
        | .ok r => .ok (d ++ r)

/-- `GenomeCompressor.decompress`: base64-decode, compute the (unused)
global checksum, then run the chunk loop.  The final Python step
`''.join(chunk.decode() for chunk in decompressed_chunks)` UTF-8-decodes
the concatenated bytes; since UTF-8 decoding is injective (a bytes value
decodes to a given string only if it IS that string's UTF-8 encoding),
the result is modelled at the byte level and compared against the UTF-8
bytes of the expected sequence. -/
def pyDecompress (inflate : List Nat → Option (List Nat)) (blob : List Nat)
    (mdl : List ChunkMd) : Except Err (List Nat) :=
  match b64decode blob with
  | .error e => .error e
  | .ok decoded =>
    let _globalChecksum := crc32 decoded
    decodeChunks inflate decoded 0 mdl

/-- Modelled from the claim C7 wording: the total number of occurrences
of `k` in the full chunk, i.e. the number of start indices at which `k`
appears (overlaps included). -/
def countOccTotal (s k : PyStr) : Nat :=
  (List.range (s.length + 1 - k.length)).countP (fun i => sliceStr s i k.length = k)

/-- Modelled from the claim C7 wording (and spec §4.4): for every window
length `L` in `[8, 32]`, slide over EVERY start index at which a
length-`L` substring begins (`0 .. len - L` inclusive), record the start
position whenever the substring occurs more than once in the full
chunk, and retain the substrings with more than 2 recorded positions.
The code (`findPatterns`) differs: its inner loop stops one start index
early and it counts non-overlapping occurrences only. -/
def findPatternsClaim (s : PyStr) : PatDict :=
  (patternLengths.foldl
      (fun d L =>
        (List.range (s.length + 1 - L)).foldl
          (fun d i =>
            let pattern := sliceStr s i L
            if 1 < countOccTotal s pattern then dictAppend d pattern i else d)
          d)
      []).filter (fun kv => 2 < kv.2.length)

/-! ### Basic lemmas about the chunk split and quality scores -/

theorem chunksOfAux_nil (cs fuel : Nat) : chunksOfAux cs fuel [] = [] := by
  cases fuel <;> simp [chunksOfAux]

theorem chunksOfAux_flatten (cs : Nat) (hcs : 1 ≤ cs) :
    ∀ fuel s, s.length ≤ fuel → (chunksOfAux cs fuel s).flatten = s := by
  intro fuel
  induction fuel with
  | zero =>
    intro s h
    have hs : s = [] := List.length_eq_zero.mp (Nat.le_zero.mp h)
    subst hs; simp [chunksOfAux]
  | succ n ih =>
    intro s h
    by_cases hs : s.isEmpty
    · have he : s = [] := List.isEmpty_iff.mp hs
      subst he; simp [chunksOfAux]
    · have hns : s ≠ [] := fun he => hs (by simp [he])
      have hlen : 1 ≤ s.length := List.length_pos.mpr hns
      have hdrop : (s.drop cs).length ≤ n := by
        simp only [List.length_drop]; omega
      simp [chunksOfAux, hs, ih (s.drop cs) hdrop]

theorem chunksOfAux_count (cs : Nat) (hcs : 1 ≤ cs) :
    ∀ fuel s, s.length ≤ fuel →
      (chunksOfAux cs fuel s).length = (s.length + cs - 1) / cs := by
  intro fuel
  induction fuel with
  | zero =>
    intro s h
    have hs : s = [] := List.length_eq_zero.mp (Nat.le_zero.mp h)
    subst hs
    simp [chunksOfAux, Nat.div_eq_of_lt (by omega : cs - 1 < cs)]
  | succ n ih =>
    intro s h
    by_cases hs : s.isEmpty
    · have hs0 : s.length = 0 := by simp [List.isEmpty_iff.mp hs]
      simp [chunksOfAux, hs, hs0, Nat.div_eq_of_lt (by omega : cs - 1 < cs)]
    · have hns : s ≠ [] := fun he => hs (by simp [he])
      have hlen : 1 ≤ s.length := List.length_pos.mpr hns
      have hdrop : (s.drop cs).length ≤ n := by
        simp only [List.length_drop]; omega
      have hrec := ih (s.drop cs) hdrop
      have hR : s.length + cs - 1 = (s.length - 1) + cs := by omega
      have hstep : chunksOfAux cs (n + 1) s = s.take cs :: chunksOfAux cs n (s.drop cs) := by
        simp [chunksOfAux, hs]
      rw [hstep, List.length_cons, hrec, List.length_drop, hR,
        Nat.add_div_right _ (by omega : 0 < cs)]
      congr 1
      rcases le_or_lt cs s.length with hle | hlt
      · congr 1; omega
      · have h1 : s.length - cs = 0 := by omega
        rw [h1]
        rw [Nat.div_eq_of_lt (by omega : 0 + cs - 1 < cs),
          Nat.div_eq_of_lt (by omega : s.length - 1 < cs)]

theorem chunksOfAux_mem_le (cs : Nat) :
    ∀ fuel s c, c ∈ chunksOfAux cs fuel s → c.length ≤ cs := by
  intro fuel
  induction fuel with
  | zero => intro s c hc; simp [chunksOfAux] at hc
  | succ n ih =>
    intro s c hc
    by_cases hs : s.isEmpty
    · simp [chunksOfAux, hs] at hc
    · simp only [chunksOfAux, hs, Bool.false_eq_true, ite_false, List.mem_cons] at hc
      rcases hc with hc | hc
      · subst hc; simp
      · exact ih _ _ hc

theorem chunksOfAux_full (cs : Nat) :
    ∀ fuel s j, j + 1 < (chunksOfAux cs fuel s).length →
      ((chunksOfAux cs fuel s).getD j []).length = cs := by
  intro fuel
  induction fuel with
  | zero => intro s j hj; simp [chunksOfAux] at hj
  | succ n ih =>
    intro s j hj
    by_cases hs : s.isEmpty
    · simp [chunksOfAux, hs] at hj
    · simp only [chunksOfAux, hs, Bool.false_eq_true, ite_false] at hj ⊢
      match j with
      | 0 =>
        simp only [List.length_cons] at hj
        have hrest : chunksOfAux cs n (s.drop cs) ≠ [] := by
          intro he; rw [he] at hj; simp at hj
        have hdrop : s.drop cs ≠ [] := by
          intro he; rw [he, chunksOfAux_nil] at hrest; exact hrest rfl
        have : cs < s.length := by
          by_contra hcon
          exact hdrop (List.drop_eq_nil_of_le (by omega))
        simp [List.getD, Nat.min_eq_left (Nat.le_of_lt this)]
      | j + 1 =>
        simp only [List.length_cons] at hj
        have := ih (s.drop cs) j (by omega)
        simpa [List.getD] using this

theorem chunksOf_flatten (cs : Nat) (hcs : 1 ≤ cs) (s : PyStr) :
    (chunksOf cs s).flatten = s :=
  chunksOfAux_flatten cs hcs s.length s le_rfl

theorem chunksOf_count (cs : Nat) (hcs : 1 ≤ cs) (s : PyStr) :
    (chunksOf cs s).length = (s.length + cs - 1) / cs :=
  chunksOfAux_count cs hcs s.length s le_rfl

theorem chunksOf_ne_nil (cs : Nat) (s : PyStr) (hs : s ≠ []) : chunksOf cs s ≠ [] := by
  unfold chunksOf
  obtain ⟨m, hm⟩ : ∃ m, s.length = m + 1 := by
    have := List.length_pos.mpr hs
    exact ⟨s.length - 1, by omega⟩
  rw [hm]
  have h1 : s.isEmpty = false := by
    cases s with
    | nil => exact absurd rfl hs
    | cons a t => rfl
  simp [chunksOfAux, h1]

theorem chunksOf_single (cs : Nat) (s : PyStr) (hs : s ≠ []) (hle : s.length ≤ cs) :
    chunksOf cs s = [s] := by
  unfold chunksOf
  obtain ⟨m, hm⟩ : ∃ m, s.length = m + 1 := by
    have := List.length_pos.mpr hs
    exact ⟨s.length - 1, by omega⟩
  rw [hm]
  have h1 : s.isEmpty = false := by
    cases s with
    | nil => exact absurd rfl hs
    | cons a t => rfl
  simp [chunksOfAux, h1, List.take_of_length_le hle, List.drop_eq_nil_of_le hle,
    chunksOfAux_nil]

theorem calcQuality_length (s : PyStr) : (calcQuality s).length = s.length := by
  simp [calcQuality]

theorem calcQuality_getD (s : PyStr) (i : Nat) (h : i < s.length) :
    (calcQuality s).getD i 0 =
      min (30 + (if 0 < i ∧ s.getD i ' ' = s.getD (i - 1) ' ' then 5 else 0)
              + (if 1 < i ∧ s.getD i ' ' = s.getD (i - 2) ' ' then 3 else 0)) 40 := by
  rw [List.getD_eq_getElem?_getD, calcQuality, List.getElem?_map,
    List.getElem?_range h]
  simp only [Option.map_some', Option.getD_some]
  split_ifs <;> omega

theorem calcQuality_mem_bounds (s : PyStr) (q : Nat) (hq : q ∈ calcQuality s) :
    30 ≤ q ∧ q ≤ 38 := by
  simp only [calcQuality, List.mem_map, List.mem_range] at hq
  obtain ⟨i, _, hv⟩ := hq
  split_ifs at hv <;> omega

theorem validate_true_iff_struct (s : PyStr) :
    validateSequence s = true ↔
      matchesAcgtnRe (s.map Char.toUpper) = true ∧ 100 ≤ s.length := by
  unfold validateSequence
  split_ifs with h1 h2
  · simp only [Bool.not_eq_true'] at h1
    constructor
    · intro h; exact absurd h (by simp)
    · intro ⟨hm, _⟩; rw [h1] at hm; exact absurd hm (by simp)
  · constructor
    · intro h; exact absurd h (by simp)
    · intro ⟨_, hl⟩; omega
  · simp only [Bool.not_eq_true', Bool.not_eq_false] at h1
    exact ⟨fun _ => ⟨h1, by omega⟩, fun _ => rfl⟩

theorem compress_valid_typeError (deflate : List Nat → List Nat) (cs : Nat)
    (s : PyStr) (hv : validateSequence s = true) :
    pyCompress deflate cs s = .error .typeError := by
  have hlen : 100 ≤ s.length := ((validate_true_iff_struct s).mp hv).2
  have hs : s ≠ [] := by
    intro he; rw [he] at hlen; simp at hlen
  obtain ⟨c, rest, hc⟩ :=
    List.exists_cons_of_ne_nil (chunksOf_ne_nil cs s hs)
  unfold pyCompress
  rw [hv]
  simp only [Bool.not_true, Bool.false_eq_true, if_false, ite_false, hc,
    List.map_cons, pySumLists]

/-- The 100-symbol all-A sequence used as concrete valid input. -/
def seqA100 : PyStr := List.replicate 100 'A'

theorem metadataList_length (cs : Nat) (s : PyStr) :
    (metadataList cs s).length = (chunksOf cs s).length := by
  simp [metadataList]

theorem metadataList_sum (cs : Nat) (hcs : 1 ≤ cs) (s : PyStr) :
    ((metadataList cs s).map ChunkMd.original_length).sum = s.length := by
  have h1 : (metadataList cs s).map ChunkMd.original_length
      = (chunksOf cs s).map List.length := by
    simp [metadataList, chunkMd, Function.comp]
  rw [h1, ← List.length_flatten, chunksOf_flatten cs hcs]

/-- C2 — the claim fails on the code: `compress` never completes on a
valid input.  Building the `CompressionStats` record evaluates
`sum(m['quality_scores'] for m in metadata_list)`, which adds the
integer 0 to a list and raises `TypeError`, so every call on a validated
sequence (the chunk list is nonempty) aborts before anything is appended
to the stats history, for every chunk size and every behaviour of the
byte compressor. -/
theorem c2_compress_always_raises_typeerror (deflate : List Nat → List Nat)
    (cs : Nat) (s : PyStr) (hv : validateSequence s = true) :
    pyCompress deflate cs s = .error .typeError :=
  compress_valid_typeError deflate cs s hv

theorem c2_compress_always_raises_typeerror_witness :
    validateSequence seqA100 = true ∧
      pyCompress id (1024 * 1024) seqA100 = .error .typeError :=
  ⟨by decide, c2_compress_always_raises_typeerror id (1024 * 1024) seqA100 (by decide)⟩

/-- C6 — confirmed: the quality estimator returns one score per
position; the score is 30, plus 5 when the base equals its immediate
predecessor, plus 3 when it equals the base two positions earlier,
capped at 40; and no score is below 30 (nor above 40). -/
theorem c6_quality_score_formula (s : PyStr) :
    (calcQuality s).length = s.length ∧
      ∀ i, i < s.length →
        (calcQuality s).getD i 0 =
          min (30 + (if 0 < i ∧ s.getD i ' ' = s.getD (i - 1) ' ' then 5 else 0)
                  + (if 1 < i ∧ s.getD i ' ' = s.getD (i - 2) ' ' then 3 else 0)) 40
        ∧ 30 ≤ (calcQuality s).getD i 0 ∧ (calcQuality s).getD i 0 ≤ 40 := by
  refine ⟨calcQuality_length s, fun i hi => ⟨calcQuality_getD s i hi, ?_⟩⟩
  have hi' : i < (calcQuality s).length := by rw [calcQuality_length]; exact hi
  have hm : (calcQuality s).getD i 0 ∈ calcQuality s := by
    rw [List.getD_eq_getElem?_getD, List.getElem?_eq_getElem hi']
    exact List.getElem_mem hi'
  have := calcQuality_mem_bounds s _ hm
  omega

theorem c6_quality_score_formula_witness :
    1 < (['A', 'A', 'G'] : PyStr).length ∧
      (calcQuality ['A', 'A', 'G']).getD 1 0 = 35 := by
  refine ⟨by decide, ?_⟩
  have h := (c6_quality_score_formula ['A', 'A', 'G']).2 1 (by decide)
  rw [h.1]; decide

/-- C8 — confirmed: for every chunk size `C ≥ 1` the chunk split
produces exactly `⌈N/C⌉` contiguous chunks covering the input in order,
each of at most `C` symbols with only the last one shorter, and the
metadata list built by `compress` has exactly one entry per chunk in
chunk order with `original_length` fields summing to `N`.  (`compress`
later aborts while building its stats record — see C2 — but the split
and the metadata list it has built satisfy the stated invariants.) -/
theorem c8_chunk_and_metadata_invariants (cs : Nat) (s : PyStr) (hcs : 1 ≤ cs) :
    (chunksOf cs s).length = (s.length + cs - 1) / cs
    ∧ (chunksOf cs s).flatten = s
    ∧ (∀ c ∈ chunksOf cs s, c.length ≤ cs)
    ∧ (∀ j, j + 1 < (chunksOf cs s).length → ((chunksOf cs s).getD j []).length = cs)
    ∧ (metadataList cs s).length = (chunksOf cs s).length
    ∧ ((metadataList cs s).map ChunkMd.original_length).sum = s.length := by
  refine ⟨chunksOf_count cs hcs s, chunksOf_flatten cs hcs s,
    fun c hc => chunksOfAux_mem_le cs s.length s c hc,
    fun j hj => chunksOfAux_full cs s.length s j hj,
    metadataList_length cs s, metadataList_sum cs hcs s⟩

theorem c8_chunk_and_metadata_invariants_witness :
    1 ≤ 3 ∧ (chunksOf 3 ['A', 'C', 'G', 'T', 'A']).length = (5 + 3 - 1) / 3
      ∧ ((metadataList 3 ['A', 'C', 'G', 'T', 'A']).map ChunkMd.original_length).sum = 5 :=
  ⟨by decide, (c8_chunk_and_metadata_invariants 3 _ (by decide)).1,
    (c8_chunk_and_metadata_invariants 3 _ (by decide)).2.2.2.2.2⟩

/-- C10 — confirmed: every synthesized quality score lies in `[30, 38]`
(the cap at 40 is never attained, the raw maximum being 30 + 5 + 3 =
38, and no score is below 30), so on the metadata `compress` builds,
the low-quality warning branch of `decompress` (any score strictly
below the threshold 30) can never fire. -/
theorem c10_low_quality_warning_unreachable (cs : Nat) (s : PyStr) :
    (∀ q ∈ calcQuality s, 30 ≤ q ∧ q ≤ 38)
    ∧ ∀ m ∈ metadataList cs s, triggersLowQualityWarning m = false := by
  refine ⟨fun q hq => calcQuality_mem_bounds s q hq, fun m hm => ?_⟩
  simp only [metadataList, List.mem_map] at hm
  obtain ⟨c, _, hc⟩ := hm
  subst hc
  have hall : (calcQuality c).any (fun q => q < 30) = false := by
    rw [List.any_eq_false]
    intro q hq
    have := calcQuality_mem_bounds c q hq
    simp only [decide_eq_true_eq]
    omega
  simp [triggersLowQualityWarning, chunkMd, hall]

theorem c10_low_quality_warning_unreachable_witness :
    (30 ∈ calcQuality ['A'] ∧ 30 ≤ 30 ∧ 30 ≤ 38)
    ∧ triggersLowQualityWarning (chunkMd ['A']) = false :=
  ⟨⟨by decide, (c10_low_quality_warning_unreachable 4 ['A']).1 30 (by decide)⟩,
    (c10_low_quality_warning_unreachable 4 ['A']).2 (chunkMd ['A'])
      (by simp [metadataList, show chunksOf 4 ['A'] = [['A']] from by decide])⟩

/-! ### Validation: the regex trailing-newline artifact (claim C3) -/

theorem toUpper_eq_newline_iff (c : Char) : c.toUpper = '\n' ↔ c = '\n' := by
  constructor
  · intro h
    unfold Char.toUpper at h
    simp only at h
    by_cases hc : c.toNat ≥ 97 ∧ c.toNat ≤ 122
    · rw [if_pos hc] at h
      exfalso
      obtain ⟨h1, h2⟩ := hc
      set n := c.toNat with hn
      interval_cases n <;> exact absurd h (by decide)
    · rw [if_neg hc] at h
      exact h
  · intro h; subst h; decide

theorem getLast_newline_decomp (s : PyStr) (h : s.getLast? = some '\n') :
    s = s.dropLast ++ ['\n'] := by
  have hne : s ≠ [] := by intro he; rw [he] at h; simp at h
  have h2 := List.dropLast_append_getLast hne
  rw [List.getLast?_eq_getLast s hne] at h
  have h3 : s.getLast hne = '\n' := Option.some.inj h
  rw [h3] at h2
  exact h2.symm

theorem matchesAcgtnRe_iff (s : PyStr) :
    matchesAcgtnRe (s.map Char.toUpper) = true ↔
      ((s ≠ [] ∧ ∀ c ∈ s, c.toUpper ∈ (['A', 'C', 'G', 'T', 'N'] : List Char))
        ∨ ∃ w, s = w ++ ['\n'] ∧ w ≠ []
            ∧ ∀ c ∈ w, c.toUpper ∈ (['A', 'C', 'G', 'T', 'N'] : List Char)) := by
  have hbool : ∀ (u : List Char),
      (!u.isEmpty && u.all (fun c => c ∈ (['A', 'C', 'G', 'T', 'N'] : List Char))) = true ↔
        (u ≠ [] ∧ ∀ c ∈ u, c ∈ (['A', 'C', 'G', 'T', 'N'] : List Char)) := by
    intro u; simp [List.isEmpty_iff, List.all_eq_true]
  have hmapne : ∀ (w : PyStr), (w.map Char.toUpper ≠ []) ↔ w ≠ [] := by
    intro w; simp
  have hmapall : ∀ (w : PyStr),
      (∀ c ∈ w.map Char.toUpper, c ∈ (['A', 'C', 'G', 'T', 'N'] : List Char)) ↔
        (∀ c ∈ w, c.toUpper ∈ (['A', 'C', 'G', 'T', 'N'] : List Char)) := by
    intro w
    constructor
    · intro h c hc; exact h c.toUpper (List.mem_map.mpr ⟨c, hc, rfl⟩)
    · intro h c hc
      obtain ⟨a, ha, rfl⟩ := List.mem_map.mp hc
      exact h a ha
  have hlast : (s.map Char.toUpper).getLast? = some '\n' ↔ s.getLast? = some '\n' := by
    rw [List.getLast?_map]
    cases hsl : s.getLast? with
    | none => simp
    | some c => simpa using toUpper_eq_newline_iff c
  unfold matchesAcgtnRe
  by_cases hnl : s.getLast? = some '\n'
  · rw [if_pos (hlast.mpr hnl), ← List.map_dropLast, hbool, hmapne, hmapall]
    have hdec := getLast_newline_decomp s hnl
    constructor
    · rintro ⟨hne, hall⟩
      exact Or.inr ⟨s.dropLast, hdec, hne, hall⟩
    · rintro (⟨hne, hall⟩ | ⟨w, hw, hwne, hall⟩)
      · exfalso
        have hmem : '\n' ∈ s := by
          rw [hdec]; exact List.mem_append_right _ (by simp)
        have hbad := hall '\n' hmem
        simp at hbad
      · have hweq : s.dropLast = w := by rw [hw]; simp
        rw [hweq]
        exact ⟨hwne, hall⟩
  · rw [if_neg (fun hcon => hnl (hlast.mp hcon)), hbool, hmapne, hmapall]
    constructor
    · rintro ⟨hne, hall⟩
      exact Or.inl ⟨hne, hall⟩
    · rintro (⟨hne, hall⟩ | ⟨w, hw, hwne, hall⟩)
      · exact ⟨hne, hall⟩
      · exfalso
        exact hnl (by rw [hw]; simp)

/-- The concrete counterexample input of claim C3: one hundred A
symbols followed by a newline. -/
def seqA100nl : PyStr := List.replicate 100 'A' ++ ['\n']

/-- C3 counterexample — the claim as stated is false: `seqA100nl`
contains a character (`'\n'`) that is, case-insensitively, outside
`{A,C,G,T,N}`, yet the validator accepts it (Python `$` matches just
before a trailing newline, so `re.match(r'^[ACGTN]+$', ...)` succeeds)
and `compress` consequently does NOT fail with InvalidSequence on it
(it fails later with the TypeError of C2 instead). -/
theorem c3_counterexample_trailing_newline :
    validateSequence seqA100nl = true
    ∧ ('\n' ∈ seqA100nl
        ∧ Char.toUpper '\n' ∉ (['A', 'C', 'G', 'T', 'N'] : List Char))
    ∧ pyCompress id (1024 * 1024) seqA100nl = .error .typeError :=
  ⟨by decide, ⟨by decide, by decide⟩,
    compress_valid_typeError id (1024 * 1024) seqA100nl (by decide)⟩

/-- C3 amended — `compress` fails with InvalidSequence exactly when the
validator rejects, and the validator accepts exactly the inputs of
length ≥ 100 whose characters all lie (after uppercasing) in
`{A,C,G,T,N}` — OR whose final character is a single trailing newline
after a nonempty all-ACGTN body (the Python `$` regex artifact, the
one deviation the counterexample forces).  `compress("")` and
`compress("123")` both fail with InvalidSequence. -/
theorem c3_invalid_sequence_characterization (deflate : List Nat → List Nat) (s : PyStr) :
    (pyCompress deflate (1024 * 1024) s = .error .invalidSequence
      ↔ validateSequence s = false)
    ∧ (validateSequence s = true ↔
        100 ≤ s.length ∧
          ((∀ c ∈ s, c.toUpper ∈ (['A', 'C', 'G', 'T', 'N'] : List Char))
            ∨ ∃ w, s = w ++ ['\n'] ∧ w ≠ []
                ∧ ∀ c ∈ w, c.toUpper ∈ (['A', 'C', 'G', 'T', 'N'] : List Char)))
    ∧ pyCompress deflate (1024 * 1024) ([] : PyStr) = .error .invalidSequence
    ∧ pyCompress deflate (1024 * 1024) ['1', '2', '3'] = .error .invalidSequence := by
  refine ⟨?_, ?_, ?_, ?_⟩
  · cases hval : validateSequence s with
    | false =>
      constructor
      · intro _; rfl
      · intro _
        unfold pyCompress
        rw [hval]
        rfl
    | true =>
      constructor
      · intro h
        rw [compress_valid_typeError deflate (1024 * 1024) s hval] at h
        exact absurd (Except.error.inj h) (by decide)
      · intro h; exact absurd h (by simp)
  · rw [validate_true_iff_struct, matchesAcgtnRe_iff]
    constructor
    · rintro ⟨(⟨hne, hall⟩ | hex), hlen⟩
      · exact ⟨hlen, Or.inl hall⟩
      · exact ⟨hlen, Or.inr hex⟩
    · rintro ⟨hlen, hall | hex⟩
      · refine ⟨Or.inl ⟨?_, hall⟩, hlen⟩
        intro he; rw [he] at hlen; simp at hlen
      · exact ⟨Or.inr hex, hlen⟩
  · unfold pyCompress
    rfl
  · unfold pyCompress
    rfl

/-! ### The encoder packing (claim C5) -/

theorem foldl_bits_init (ys : List Nat) :
    ∀ init : Nat, ys.foldl (fun a b => 2 * a + b) init
      = init * 2 ^ ys.length + bitsToNat ys := by
  induction ys with
  | nil => intro init; simp [bitsToNat]
  | cons y ys ih =>
    intro init
    show (ys.foldl (fun a b => 2 * a + b) (2 * init + y)) = _
    rw [ih (2 * init + y)]
    have hy : bitsToNat (y :: ys) = y * 2 ^ ys.length + bitsToNat ys := by
      show (ys.foldl (fun a b => 2 * a + b) (2 * 0 + y)) = _
      rw [ih (2 * 0 + y)]
      ring
    rw [hy, List.length_cons]
    ring

theorem bitsToNat_append (xs ys : List Nat) :
    bitsToNat (xs ++ ys) = bitsToNat xs * 2 ^ ys.length + bitsToNat ys := by
  unfold bitsToNat
  rw [List.foldl_append, foldl_bits_init]
  rfl

theorem bitsToNat_lt (bits : List Nat) (h : ∀ b ∈ bits, b ≤ 1) :
    bitsToNat bits < 2 ^ bits.length := by
  induction bits with
  | nil => simp [bitsToNat]
  | cons b rest ih =>
    have hb : b ≤ 1 := h b (by simp)
    have hr := ih (fun x hx => h x (by simp [hx]))
    have hcons : bitsToNat (b :: rest) = b * 2 ^ rest.length + bitsToNat rest := by
      show (rest.foldl (fun a b => 2 * a + b) (2 * 0 + b)) = _
      rw [foldl_bits_init]
      ring
    rw [hcons, List.length_cons, pow_succ]
    nlinarith

theorem bitsToNat_replicate_zero (p : Nat) : bitsToNat (List.replicate p 0) = 0 := by
  induction p with
  | zero => rfl
  | succ n ih =>
    show bitsToNat (0 :: List.replicate n 0) = 0
    have : bitsToNat (0 :: List.replicate n 0)
        = 0 * 2 ^ n + bitsToNat (List.replicate n 0) := by
      show ((List.replicate n 0).foldl (fun a b => 2 * a + b) (2 * 0 + 0)) = _
      rw [foldl_bits_init]
      simp
    rw [this, ih]
    simp

theorem bitsToNat_pad_front (p : Nat) (xs : List Nat) :
    bitsToNat (List.replicate p 0 ++ xs) = bitsToNat xs := by
  rw [bitsToNat_append, bitsToNat_replicate_zero]
  simp

theorem natToBytesBE_eq_bytesOfBits :
    ∀ k (bits : List Nat), (∀ b ∈ bits, b ≤ 1) → bits.length = 8 * k →
      natToBytesBE (bitsToNat bits) k = bytesOfBits bits := by
  intro k
  induction k with
  | zero =>
    intro bits _ hlen
    have : bits = [] := List.length_eq_zero.mp (by omega)
    subst this
    rfl
  | succ k ih =>
    intro bits hb hlen
    rcases bits with _ | ⟨b0, _ | ⟨b1, _ | ⟨b2, _ | ⟨b3, _ | ⟨b4, _ | ⟨b5, _ | ⟨b6, _ | ⟨b7, rest⟩⟩⟩⟩⟩⟩⟩⟩ <;>
      simp only [List.length_nil, List.length_cons] at hlen <;> try omega
    have hrest : rest.length = 8 * k := by omega
    have hsplit : (b0 :: b1 :: b2 :: b3 :: b4 :: b5 :: b6 :: b7 :: rest)
        = [b0, b1, b2, b3, b4, b5, b6, b7] ++ rest := rfl
    have hbhead : ∀ b ∈ [b0, b1, b2, b3, b4, b5, b6, b7], b ≤ 1 := by
      intro b hbm
      exact hb b (by rw [hsplit]; exact List.mem_append_left _ hbm)
    have hbrest : ∀ b ∈ rest, b ≤ 1 := by
      intro b hbm
      exact hb b (by rw [hsplit]; exact List.mem_append_right _ hbm)
    have hheadlt : bitsToNat [b0, b1, b2, b3, b4, b5, b6, b7] < 256 := by
      have := bitsToNat_lt _ hbhead
      simpa using this
    have hrestlt : bitsToNat rest < 256 ^ k := by
      have := bitsToNat_lt rest hbrest
      rw [hrest] at this
      calc bitsToNat rest < 2 ^ (8 * k) := this
        _ = 256 ^ k := by rw [pow_mul]; norm_num
    have hval : bitsToNat (b0 :: b1 :: b2 :: b3 :: b4 :: b5 :: b6 :: b7 :: rest)
        = bitsToNat [b0, b1, b2, b3, b4, b5, b6, b7] * 256 ^ k + bitsToNat rest := by
      rw [hsplit, bitsToNat_append, hrest, pow_mul]
      norm_num
    rw [hval]
    show (bitsToNat [b0, b1, b2, b3, b4, b5, b6, b7] * 256 ^ k + bitsToNat rest) / 256 ^ k % 256
        :: natToBytesBE ((bitsToNat [b0, b1, b2, b3, b4, b5, b6, b7] * 256 ^ k + bitsToNat rest) % 256 ^ k) k
      = bytesOfBits (b0 :: b1 :: b2 :: b3 :: b4 :: b5 :: b6 :: b7 :: rest)
    have hpow : 0 < 256 ^ k := Nat.pos_pow_of_pos k (by norm_num)
    have hdiv : (bitsToNat [b0, b1, b2, b3, b4, b5, b6, b7] * 256 ^ k + bitsToNat rest) / 256 ^ k
        = bitsToNat [b0, b1, b2, b3, b4, b5, b6, b7] := by
      rw [mul_comm, Nat.mul_add_div hpow, Nat.div_eq_of_lt hrestlt, Nat.add_zero]
    have hmod : (bitsToNat [b0, b1, b2, b3, b4, b5, b6, b7] * 256 ^ k + bitsToNat rest) % 256 ^ k
        = bitsToNat rest := by
      rw [mul_comm, Nat.mul_add_mod, Nat.mod_eq_of_lt hrestlt]
    rw [hdiv, hmod, Nat.mod_eq_of_lt hheadlt, ih rest hbrest hrest]
    rfl

theorem baseBits_length (c : Char) : (baseBits c).length = 2 := by
  unfold baseBits
  split_ifs <;> rfl

theorem baseBits_le_one (c : Char) (b : Nat) (hb : b ∈ baseBits c) : b ≤ 1 := by
  unfold baseBits at hb
  split_ifs at hb <;> simp_all <;> omega

theorem seqBits_length (s : PyStr) : (seqBits s).length = 2 * s.length := by
  unfold seqBits
  rw [List.length_flatten, List.map_map]
  have h1 : s.map (List.length ∘ fun c => baseBits c.toUpper) = s.map (fun _ => 2) := by
    apply List.map_congr_left
    intro c _
    exact baseBits_length c.toUpper
  rw [h1]
  simp [List.map_const']
  ring

theorem toBits8_length (q : Nat) : (toBits8 q).length = 8 := by
  simp [toBits8]

theorem qualBits_length (s : PyStr) : (qualBits s).length = 8 * s.length := by
  unfold qualBits
  rw [List.length_flatten, List.map_map]
  have h1 : (calcQuality s).map (List.length ∘ toBits8) = (calcQuality s).map (fun _ => 8) := by
    apply List.map_congr_left
    intro q _
    exact toBits8_length q
  rw [h1]
  simp [List.map_const', calcQuality_length]
  ring

theorem seqBits_le_one (s : PyStr) (b : Nat) (hb : b ∈ seqBits s) : b ≤ 1 := by
  unfold seqBits at hb
  rw [List.mem_flatten] at hb
  obtain ⟨l, hl, hbl⟩ := hb
  rw [List.mem_map] at hl
  obtain ⟨c, _, rfl⟩ := hl
  exact baseBits_le_one c.toUpper b hbl

theorem toBits8_le_one (q b : Nat) (hb : b ∈ toBits8 q) : b ≤ 1 := by
  unfold toBits8 at hb
  rw [List.mem_map] at hb
  obtain ⟨j, _, rfl⟩ := hb
  exact Nat.le_of_lt_succ (Nat.mod_lt _ (by norm_num))

theorem qualBits_le_one (s : PyStr) (b : Nat) (hb : b ∈ qualBits s) : b ≤ 1 := by
  unfold qualBits at hb
  rw [List.mem_flatten] at hb
  obtain ⟨l, hl, hbl⟩ := hb
  rw [List.mem_map] at hl
  obtain ⟨q, _, rfl⟩ := hl
  exact toBits8_le_one q b hbl

/-- C5 counterexample — the claim as stated is false at the one-symbol
sequence `"T"`: the code packs the 10-bit combined bitstring
`1100011110` as `int(bits, 2).to_bytes(2, 'big') = [3, 30]`, which
left-pads with zero bits, whereas the claim's packing ("final byte
rounded up with zero bits", i.e. zero bits appended at the end) would
give `[199, 128]`. -/
theorem c5_counterexample_padding_side :
    encodeSequence ['T'] = [3, 30] ∧ encodeClaimPadding ['T'] = [199, 128] := by
  constructor <;> decide

theorem combinedBits_length (s : PyStr) :
    (seqBits s ++ qualBits s).length = 10 * s.length := by
  rw [List.length_append, seqBits_length, qualBits_length]
  ring

theorem encodeSequence_eq_pack (s : PyStr) :
    encodeSequence s
      = bytesOfBits
          (List.replicate ((8 - (seqBits s ++ qualBits s).length % 8) % 8) 0
            ++ (seqBits s ++ qualBits s)) := by
  simp only [encodeSequence]
  set combined := seqBits s ++ qualBits s with hcomb
  set p := (8 - combined.length % 8) % 8 with hp
  have hble : ∀ b ∈ List.replicate p 0 ++ combined, b ≤ 1 := by
    intro b hb
    rcases List.mem_append.mp hb with hb | hb
    · rw [List.eq_of_mem_replicate hb]; omega
    · rcases List.mem_append.mp hb with hb | hb
      · exact seqBits_le_one s b hb
      · exact qualBits_le_one s b hb
  have hlen : (List.replicate p 0 ++ combined).length = 8 * ((combined.length + 7) / 8) := by
    rw [List.length_append, List.length_replicate]
    omega
  rw [← bitsToNat_pad_front p combined,
    natToBytesBE_eq_bytesOfBits ((combined.length + 7) / 8) _ hble hlen]

/-- C5 amended — the encoder maps each base (after uppercasing) to its
fixed 2-bit code (A=00, C=01, G=10, T=11, anything else including N to
00) concatenated in sequence order, appends each quality score as an
8-bit field in the same positional order, and packs the combined
bitstring into a big-endian byte buffer of `⌈bits/8⌉` bytes — with the
zero padding bits PREPENDED at the most-significant end (the first
byte), not appended to the final byte as the claim stated. -/
theorem c5_encoder_front_padded_packing (s : PyStr) :
    (seqBits s ++ qualBits s).length = 10 * s.length
    ∧ encodeSequence s
      = bytesOfBits
          (List.replicate ((8 - (seqBits s ++ qualBits s).length % 8) % 8) 0
            ++ (seqBits s ++ qualBits s)) :=
  ⟨combinedBits_length s, encodeSequence_eq_pack s⟩

/-! ### Dictionary lemmas for the pattern detector (claims C7, C9) -/

theorem dEntry_dictAppend_self (d : PatDict) (k : PyStr) (i : Nat) :
    dEntry (dictAppend d k i) k = dEntry d k ++ [i] := by
  induction d with
  | nil => simp [dictAppend, dEntry]
  | cons kv rest ih =>
    obtain ⟨k', v⟩ := kv
    by_cases h : k' = k
    · subst h
      simp [dictAppend, dEntry]
    · simp [dictAppend, dEntry, h, ih]

theorem dEntry_dictAppend_ne (d : PatDict) (k : PyStr) (i : Nat) (k' : PyStr)
    (h : k' ≠ k) : dEntry (dictAppend d k i) k' = dEntry d k' := by
  have h' : k ≠ k' := Ne.symm h
  induction d with
  | nil => simp [dictAppend, dEntry, h']
  | cons kv rest ih =>
    obtain ⟨k'', v⟩ := kv
    by_cases h2 : k'' = k
    · subst h2
      simp [dictAppend, dEntry, h']
    · by_cases h3 : k'' = k'
      · subst h3
        simp [dictAppend, dEntry, h2]
      · simp [dictAppend, dEntry, h2, h3, ih]

theorem dKeys_cons (k' : PyStr) (v : List Nat) (rest : PatDict) :
    dKeys ((k', v) :: rest) = k' :: dKeys rest := rfl

theorem dKeys_dictAppend (d : PatDict) (k : PyStr) (i : Nat) :
    dKeys (dictAppend d k i) = if k ∈ dKeys d then dKeys d else dKeys d ++ [k] := by
  induction d with
  | nil => simp [dictAppend, dKeys]
  | cons kv rest ih =>
    obtain ⟨k', v⟩ := kv
    by_cases h : k' = k
    · subst h
      have hm : k' ∈ dKeys ((k', v) :: rest) := by simp [dKeys_cons]
      have hstep : dictAppend ((k', v) :: rest) k' i = (k', v ++ [i]) :: rest := by
        simp [dictAppend]
      rw [hstep, if_pos hm, dKeys_cons, dKeys_cons]
    · have h' : k ≠ k' := Ne.symm h
      have hiff : k ∈ dKeys ((k', v) :: rest) ↔ k ∈ dKeys rest := by
        rw [dKeys_cons]
        simp [h']
      have hstep : dictAppend ((k', v) :: rest) k i = (k', v) :: dictAppend rest k i := by
        simp [dictAppend, h]
      rw [hstep, dKeys_cons, ih]
      by_cases hm : k ∈ dKeys rest
      · rw [if_pos hm, if_pos (hiff.mpr hm), dKeys_cons]
      · rw [if_neg hm, if_neg (fun hc => hm (hiff.mp hc)), dKeys_cons]
        rfl

theorem mem_dKeys_dictAppend (d : PatDict) (k : PyStr) (i : Nat) (k' : PyStr) :
    k' ∈ dKeys (dictAppend d k i) ↔ k' ∈ dKeys d ∨ k' = k := by
  rw [dKeys_dictAppend]
  by_cases hm : k ∈ dKeys d
  · rw [if_pos hm]
    constructor
    · exact Or.inl
    · rintro (h | rfl)
      · exact h
      · exact hm
  · rw [if_neg hm]
    simp

theorem nodup_dKeys_dictAppend (d : PatDict) (k : PyStr) (i : Nat)
    (h : (dKeys d).Nodup) : (dKeys (dictAppend d k i)).Nodup := by
  rw [dKeys_dictAppend]
  by_cases hm : k ∈ dKeys d
  · rw [if_pos hm]; exact h
  · rw [if_neg hm]
    rw [List.nodup_append]
    exact ⟨h, List.nodup_singleton k, by simpa [List.disjoint_singleton] using hm⟩

/-- Every stored position list in the dictionary is nonempty (an append
creates singleton entries and only ever extends existing ones). -/
def valsNonempty (d : PatDict) : Prop := ∀ kv ∈ d, kv.2 ≠ ([] : List Nat)

theorem valsNonempty_dictAppend (d : PatDict) (k : PyStr) (i : Nat)
    (h : valsNonempty d) : valsNonempty (dictAppend d k i) := by
  induction d with
  | nil =>
    intro kv hkv
    simp [dictAppend] at hkv
    subst hkv
    simp
  | cons kv0 rest ih =>
    obtain ⟨k', v⟩ := kv0
    by_cases h2 : k' = k
    · subst h2
      intro kv hkv
      simp only [dictAppend, if_pos rfl, ite_true, List.mem_cons] at hkv
      rcases hkv with rfl | hkv
      · simp
      · exact h kv (by simp [hkv])
    · intro kv hkv
      simp only [dictAppend, h2, ite_false, List.mem_cons] at hkv
      rcases hkv with rfl | hkv
      · exact h (k', v) (by simp)
      · exact ih (fun kv2 hkv2 => h kv2 (by simp [hkv2])) kv hkv

theorem mem_iff_dEntry (d : PatDict) (hnd : (dKeys d).Nodup) (k : PyStr) (v : List Nat) :
    (k, v) ∈ d ↔ k ∈ dKeys d ∧ dEntry d k = v := by
  induction d with
  | nil => simp [dKeys, dEntry]
  | cons kv0 rest ih =>
    obtain ⟨k', v'⟩ := kv0
    rw [dKeys_cons] at hnd ⊢
    have hnd1 : k' ∉ dKeys rest := (List.nodup_cons.mp hnd).1
    have hnd2 : (dKeys rest).Nodup := (List.nodup_cons.mp hnd).2
    by_cases h : k' = k
    · subst h
      constructor
      · intro hm
        rcases List.mem_cons.mp hm with heq | hm2
        · have : v' = v := (Prod.mk.injEq _ _ _ _ ▸ heq.symm).2
          subst this
          exact ⟨by simp, by simp [dEntry]⟩
        · exfalso
          exact hnd1 (by simpa [dKeys] using List.mem_map_of_mem Prod.fst hm2)
      · rintro ⟨_, hent⟩
        simp only [dEntry, if_pos rfl, ite_true] at hent
        subst hent
        simp
    · have h' : k ≠ k' := Ne.symm h
      constructor
      · intro hm
        rcases List.mem_cons.mp hm with heq | hm2
        · exfalso
          have hfst : k = k' := congrArg Prod.fst heq
          exact h' hfst
        · have := (ih hnd2).mp hm2
          refine ⟨by simp [this.1], ?_⟩
          simp only [dEntry, h, ite_false]
          exact this.2
      · rintro ⟨hmem, hent⟩
        rcases List.mem_cons.mp hmem with heq | hm2
        · exact absurd heq.symm h
        · simp only [dEntry, h, ite_false] at hent
          exact List.mem_cons_of_mem _ ((ih hnd2).mpr ⟨hm2, hent⟩)

theorem mem_dKeys_iff_dEntry_ne (d : PatDict) (hv : valsNonempty d) (k : PyStr) :
    k ∈ dKeys d ↔ dEntry d k ≠ [] := by
  induction d with
  | nil => simp [dKeys, dEntry]
  | cons kv0 rest ih =>
    obtain ⟨k', v'⟩ := kv0
    rw [dKeys_cons]
    by_cases h : k' = k
    · subst h
      have hv' : v' ≠ [] := hv (k', v') (by simp)
      simp [dEntry, hv']
    · have h' : k ≠ k' := Ne.symm h
      have hrest : valsNonempty rest := fun kv hkv => hv kv (by simp [hkv])
      simp only [dEntry, h, ite_false, List.mem_cons]
      rw [← ih hrest]
      simp [h']

/-! ### Loop invariants of the pattern detector -/

theorem innerFold_dEntry (s : PyStr) (L : Nat) :
    ∀ (is : List Nat) (d : PatDict) (k : PyStr),
      dEntry (is.foldl (patternsStep s L) d) k
        = dEntry d k
            ++ is.filter (fun i => decide (sliceStr s i L = k) && decide (1 < pyCount s k)) := by
  intro is
  induction is with
  | nil => intro d k; simp
  | cons i is ih =>
    intro d k
    rw [List.foldl_cons, ih, List.filter_cons]
    by_cases hs : sliceStr s i L = k
    · have hstep : patternsStep s L d i
          = if 1 < pyCount s k then dictAppend d k i else d := by
        simp only [patternsStep]
        rw [hs]
      rw [hstep]
      by_cases hc : 1 < pyCount s k
      · rw [if_pos hc, dEntry_dictAppend_self]
        simp [hs, hc]
      · rw [if_neg hc]
        simp [hs, hc]
    · have hne : k ≠ sliceStr s i L := fun h => hs h.symm
      have hstep : dEntry (patternsStep s L d i) k = dEntry d k := by
        simp only [patternsStep]
        by_cases hc : 1 < pyCount s (sliceStr s i L)
        · rw [if_pos hc, dEntry_dictAppend_ne _ _ _ _ hne]
        · rw [if_neg hc]
      rw [hstep]
      simp [hs]

theorem patternsStep_valsNonempty (s : PyStr) (L : Nat) (d : PatDict) (i : Nat)
    (h : valsNonempty d) : valsNonempty (patternsStep s L d i) := by
  simp only [patternsStep]
  split_ifs with hc
  · exact valsNonempty_dictAppend d _ i h
  · exact h

theorem patternsStep_nodup (s : PyStr) (L : Nat) (d : PatDict) (i : Nat)
    (h : (dKeys d).Nodup) : (dKeys (patternsStep s L d i)).Nodup := by
  simp only [patternsStep]
  split_ifs with hc
  · exact nodup_dKeys_dictAppend d _ i h
  · exact h

theorem innerFold_valsNonempty (s : PyStr) (L : Nat) :
    ∀ (is : List Nat) (d : PatDict), valsNonempty d →
      valsNonempty (is.foldl (patternsStep s L) d) := by
  intro is
  induction is with
  | nil => intro d h; exact h
  | cons i is ih =>
    intro d h
    rw [List.foldl_cons]
    exact ih _ (patternsStep_valsNonempty s L d i h)

theorem innerFold_nodup (s : PyStr) (L : Nat) :
    ∀ (is : List Nat) (d : PatDict), (dKeys d).Nodup →
      (dKeys (is.foldl (patternsStep s L) d)).Nodup := by
  intro is
  induction is with
  | nil => intro d h; exact h
  | cons i is ih =>
    intro d h
    rw [List.foldl_cons]
    exact ih _ (patternsStep_nodup s L d i h)

theorem slice_length_of_range (s : PyStr) (L i : Nat) (h : i < s.length - L) :
    (sliceStr s i L).length = L := by
  simp only [sliceStr, List.length_take, List.length_drop]
  omega

theorem innerFilter_nil_of_len_ne (s : PyStr) (L : Nat) (k : PyStr) (h : k.length ≠ L) :
    (List.range (s.length - L)).filter
        (fun i => decide (sliceStr s i L = k) && decide (1 < pyCount s k)) = [] := by
  rw [List.filter_eq_nil_iff]
  intro i hi
  rw [List.mem_range] at hi
  simp only [Bool.and_eq_true, decide_eq_true_eq, not_and]
  intro heq
  exfalso
  apply h
  rw [← heq]
  exact slice_length_of_range s L i hi

theorem outerFold_dEntry_notmem (s : PyStr) :
    ∀ (Ls : List Nat) (d : PatDict) (k : PyStr), k.length ∉ Ls →
      dEntry (Ls.foldl (patternsForLength s) d) k = dEntry d k := by
  intro Ls
  induction Ls with
  | nil => intro d k _; rfl
  | cons L Ls ih =>
    intro d k hk
    rw [List.foldl_cons, ih _ _ (fun h => hk (List.mem_cons_of_mem _ h))]
    unfold patternsForLength
    rw [innerFold_dEntry,
      innerFilter_nil_of_len_ne s L k (fun h => hk (h ▸ List.mem_cons_self _ _))]
    simp

theorem outerFold_dEntry_mem (s : PyStr) (Ls : List Nat) (d : PatDict) (k : PyStr)
    (hnd : Ls.Nodup) (hmem : k.length ∈ Ls) :
    dEntry (Ls.foldl (patternsForLength s) d) k
      = dEntry d k
          ++ (List.range (s.length - k.length)).filter
              (fun i => decide (sliceStr s i k.length = k) && decide (1 < pyCount s k)) := by
  obtain ⟨l1, l2, rfl⟩ := List.append_of_mem hmem
  rw [List.nodup_append] at hnd
  obtain ⟨-, hnd2, hdisj⟩ := hnd
  have hnotl1 : k.length ∉ l1 := fun hc => hdisj hc (List.mem_cons_self _ _)
  have hnotl2 : k.length ∉ l2 := (List.nodup_cons.mp hnd2).1
  rw [List.foldl_append, List.foldl_cons,
    outerFold_dEntry_notmem s l2 _ k hnotl2]
  have hinner : ∀ d0 : PatDict,
      dEntry (patternsForLength s d0 k.length) k
        = dEntry d0 k
            ++ (List.range (s.length - k.length)).filter
                (fun i => decide (sliceStr s i k.length = k) && decide (1 < pyCount s k)) := by
    intro d0
    unfold patternsForLength
    rw [innerFold_dEntry]
  rw [hinner, outerFold_dEntry_notmem s l1 d k hnotl1]

theorem outerFold_valsNonempty (s : PyStr) :
    ∀ (Ls : List Nat) (d : PatDict), valsNonempty d →
      valsNonempty (Ls.foldl (patternsForLength s) d) := by
  intro Ls
  induction Ls with
  | nil => intro d h; exact h
  | cons L Ls ih =>
    intro d h
    rw [List.foldl_cons]
    exact ih _ (innerFold_valsNonempty s L _ d h)

theorem outerFold_nodup (s : PyStr) :
    ∀ (Ls : List Nat) (d : PatDict), (dKeys d).Nodup →
      (dKeys (Ls.foldl (patternsForLength s) d)).Nodup := by
  intro Ls
  induction Ls with
  | nil => intro d h; exact h
  | cons L Ls ih =>
    intro d h
    rw [List.foldl_cons]
    exact ih _ (innerFold_nodup s L _ d h)

theorem patternLengths_nodup : patternLengths.Nodup := by decide

theorem patternLengths_mem (L : Nat) : L ∈ patternLengths ↔ 8 ≤ L ∧ L ≤ 32 := by
  simp only [patternLengths, List.mem_map, List.mem_range]
  constructor
  · rintro ⟨m, hm, rfl⟩; omega
  · rintro ⟨h1, h2⟩; exact ⟨L - 8, by omega, by omega⟩

/-- The accumulated dictionary of `_find_patterns` before the final
filtering step. -/
def builtDict (s : PyStr) : PatDict := patternLengths.foldl (patternsForLength s) []

theorem builtDict_dEntry (s : PyStr) (k : PyStr) :
    dEntry (builtDict s) k
      = if 8 ≤ k.length ∧ k.length ≤ 32 then
          (List.range (s.length - k.length)).filter
            (fun i => decide (sliceStr s i k.length = k) && decide (1 < pyCount s k))
        else [] := by
  unfold builtDict
  by_cases hL : 8 ≤ k.length ∧ k.length ≤ 32
  · rw [if_pos hL,
      outerFold_dEntry_mem s patternLengths [] k patternLengths_nodup
        ((patternLengths_mem k.length).mpr hL)]
    rfl
  · rw [if_neg hL,
      outerFold_dEntry_notmem s patternLengths [] k
        (fun hc => hL ((patternLengths_mem k.length).mp hc))]
    rfl

theorem builtDict_nodup (s : PyStr) : (dKeys (builtDict s)).Nodup :=
  outerFold_nodup s patternLengths [] (by simp [dKeys])

theorem builtDict_valsNonempty (s : PyStr) : valsNonempty (builtDict s) :=
  outerFold_valsNonempty s patternLengths [] (by intro kv hkv; simp at hkv)

/-- Full characterization of the pattern dictionary `_find_patterns`
returns: `(k, v)` is an entry exactly when `k` is a window of length in
`[8, 32]`, its non-overlapping count in the chunk exceeds 1, and `v` is
the list of start indices `i` in `range(len - len(k))` — the final
start position `len - len(k)` excluded — at which `k` occurs, with more
than 2 recorded positions. -/
theorem findPatterns_mem_iff (s : PyStr) (k : PyStr) (v : List Nat) :
    (k, v) ∈ findPatterns s ↔
      8 ≤ k.length ∧ k.length ≤ 32 ∧ 1 < pyCount s k
        ∧ v = (List.range (s.length - k.length)).filter
              (fun i => decide (sliceStr s i k.length = k))
        ∧ 2 < v.length := by
  have hmem : (k, v) ∈ findPatterns s ↔ dEntry (builtDict s) k = v ∧ 2 < v.length := by
    unfold findPatterns
    rw [List.mem_filter]
    have h1 : ((patternLengths.foldl (patternsForLength s) [])) = builtDict s := rfl
    rw [h1, mem_iff_dEntry (builtDict s) (builtDict_nodup s),
      mem_dKeys_iff_dEntry_ne (builtDict s) (builtDict_valsNonempty s)]
    simp only [decide_eq_true_eq]
    constructor
    · rintro ⟨⟨hne, hent⟩, hlen⟩
      exact ⟨hent, hlen⟩
    · rintro ⟨hent, hlen⟩
      refine ⟨⟨?_, hent⟩, hlen⟩
      rw [hent]
      intro hcon
      rw [hcon] at hlen
      simp at hlen
  rw [hmem, builtDict_dEntry]
  by_cases hL : 8 ≤ k.length ∧ k.length ≤ 32
  · rw [if_pos hL]
    by_cases hc : 1 < pyCount s k
    · have hfilter : (List.range (s.length - k.length)).filter
            (fun i => decide (sliceStr s i k.length = k) && decide (1 < pyCount s k))
          = (List.range (s.length - k.length)).filter
            (fun i => decide (sliceStr s i k.length = k)) := by
        apply List.filter_congr
        intro i _
        simp [hc]
      rw [hfilter]
      constructor
      · rintro ⟨hv, hlen⟩
        exact ⟨hL.1, hL.2, hc, hv.symm, hlen⟩
      · rintro ⟨-, -, -, hv, hlen⟩
        exact ⟨hv.symm, hlen⟩
    · have hfilter : (List.range (s.length - k.length)).filter
            (fun i => decide (sliceStr s i k.length = k) && decide (1 < pyCount s k))
          = [] := by
        rw [List.filter_eq_nil_iff]
        intro i _
        simp [hc]
      rw [hfilter]
      constructor
      · rintro ⟨hv, hlen⟩
        rw [← hv] at hlen
        simp at hlen
      · rintro ⟨-, -, hcon, -⟩
        exact absurd hcon hc
  · rw [if_neg hL]
    constructor
    · rintro ⟨hv, hlen⟩
      rw [← hv] at hlen
      simp at hlen
    · rintro ⟨h1, h2, -⟩
      exact absurd ⟨h1, h2⟩ hL

/-- C7 counterexample — the claim as stated is false at the concrete
chunk `"ACGT" * 4`: the claim's procedure (every start index
`0 .. len - L` inclusive, total occurrence counting) yields the key
`"ACGTACGT"` with positions `[0, 4, 8]`, but the code's inner loop
stops at `range(len - length)` — never examining the final start
position — and counts occurrences non-overlappingly, so its recorded
position lists stay at length ≤ 2 and the returned dictionary is
empty. -/
theorem c7_counterexample_last_window :
    findPatterns (pyRepeat ['A', 'C', 'G', 'T'] 4) = []
    ∧ findPatternsClaim (pyRepeat ['A', 'C', 'G', 'T'] 4)
        = [(['A', 'C', 'G', 'T', 'A', 'C', 'G', 'T'], [0, 4, 8])] := by
  constructor <;> decide

/-- C7 amended — `find_patterns` considers, for every window length `L`
in `[8, 32]`, the start indices `i` in `range(len - L)` — the window
beginning at the final start position `len - L` is never examined —
records `i` under the substring whenever the substring's
NON-OVERLAPPING occurrence count in the full chunk exceeds 1 (Python
`str.count`), and retains exactly the substrings with more than 2
recorded positions; consequently every key of the returned map has
length in `[8, 32]` and at least 3 recorded occurrence positions. -/
theorem c7_find_patterns_characterization (s : PyStr) (k : PyStr) (v : List Nat) :
    (k, v) ∈ findPatterns s ↔
      8 ≤ k.length ∧ k.length ≤ 32 ∧ 1 < pyCount s k
        ∧ v = (List.range (s.length - k.length)).filter
              (fun i => decide (sliceStr s i k.length = k))
        ∧ 2 < v.length :=
  findPatterns_mem_iff s k v

/-! ### The periodic input of claim C9 -/

/-- The base at residue `r` of the period-4 pattern `ACGT`. -/
def acgtChar (r : Nat) : Char := (['A', 'C', 'G', 'T'] : PyStr).getD r ' '

/-- The length-8 window of the periodic sequence starting at a position
with residue `r` mod 4 (`rotWin 0 = "ACGTACGT"`, `rotWin 1 =
"CGTACGTA"`, ...). -/
def rotWin (r : Nat) : PyStr := (List.range 8).map (fun j => acgtChar ((r + j) % 4))

theorem pyRepeat_length (p : PyStr) (n : Nat) : (pyRepeat p n).length = n * p.length := by
  induction n with
  | zero => simp [pyRepeat]
  | succ m ih =>
    have h : pyRepeat p (m + 1) = p ++ pyRepeat p m := by
      simp [pyRepeat, List.replicate_succ]
    rw [h, List.length_append, ih]
    ring

theorem pyRepeat_getD (p : PyStr) :
    ∀ n j, j < n * p.length → (pyRepeat p n).getD j ' ' = p.getD (j % p.length) ' ' := by
  intro n
  induction n with
  | zero => intro j hj; simp at hj
  | succ m ih =>
    intro j hj
    have h : pyRepeat p (m + 1) = p ++ pyRepeat p m := by
      simp [pyRepeat, List.replicate_succ]
    rw [h]
    by_cases hlt : j < p.length
    · rw [List.getD_eq_getElem?_getD, List.getD_eq_getElem?_getD,
        List.getElem?_append, if_pos hlt, Nat.mod_eq_of_lt hlt]
    · push_neg at hlt
      rw [List.getD_eq_getElem?_getD, List.getElem?_append_right hlt,
        ← List.getD_eq_getElem?_getD]
      have hmod : j % p.length = (j - p.length) % p.length := by
        conv_lhs => rw [show j = (j - p.length) + p.length from by omega]
        rw [Nat.add_mod_right]
      rw [hmod]
      have hmul : (m + 1) * p.length = m * p.length + p.length := by ring
      exact ih (j - p.length) (by omega)

theorem acgtRep_length (n : Nat) : (pyRepeat ['A', 'C', 'G', 'T'] n).length = 4 * n := by
  rw [pyRepeat_length]
  simp only [List.length_cons, List.length_nil]
  ring

theorem acgtRep_getD (n j : Nat) (h : j < 4 * n) :
    (pyRepeat ['A', 'C', 'G', 'T'] n).getD j ' ' = acgtChar (j % 4) := by
  have := pyRepeat_getD ['A', 'C', 'G', 'T'] n j
    (by simp only [List.length_cons, List.length_nil]; omega)
  simpa [acgtChar] using this

theorem rotWin_getD (r j : Nat) (hj : j < 8) :
    (rotWin r).getD j ' ' = acgtChar ((r + j) % 4) := by
  rw [rotWin, List.getD_eq_getElem?_getD, List.getElem?_map, List.getElem?_range hj]
  rfl

theorem rotWin_length (r : Nat) : (rotWin r).length = 8 := by
  simp [rotWin]

theorem acgtChar_inj (a b : Nat) (ha : a < 4) (hb : b < 4)
    (h : acgtChar a = acgtChar b) : a = b := by
  interval_cases a <;> interval_cases b <;> first | rfl | exact absurd h (by decide)

theorem slice_eq_rotWin_iff (n i r : Nat) (hr : r < 4) (hi : i + 8 ≤ 4 * n) :
    sliceStr (pyRepeat ['A', 'C', 'G', 'T'] n) i 8 = rotWin r ↔ i % 4 = r := by
  set s := pyRepeat ['A', 'C', 'G', 'T'] n with hs
  have hslen : s.length = 4 * n := acgtRep_length n
  have hslice_len : (sliceStr s i 8).length = 8 := by
    simp only [sliceStr, List.length_take, List.length_drop, hslen]
    omega
  have hslice_getD : ∀ j, j < 8 → (sliceStr s i 8).getD j ' ' = acgtChar ((i + j) % 4) := by
    intro j hj
    rw [sliceStr, List.getD_eq_getElem?_getD, List.getElem?_take, if_pos hj,
      List.getElem?_drop, ← List.getD_eq_getElem?_getD]
    exact acgtRep_getD n (i + j) (by omega)
  constructor
  · intro h
    have h0 := congrArg (fun l => l.getD 0 ' ') h
    simp only at h0
    rw [hslice_getD 0 (by norm_num), rotWin_getD r 0 (by norm_num)] at h0
    have := acgtChar_inj ((i + 0) % 4) ((r + 0) % 4) (Nat.mod_lt _ (by norm_num))
      (Nat.mod_lt _ (by norm_num)) h0
    omega
  · intro h
    apply List.ext_getElem (by rw [hslice_len, rotWin_length])
    intro j hj1 hj2
    have hj : j < 8 := by rw [hslice_len] at hj1; exact hj1
    have e1 : (sliceStr s i 8)[j] = (sliceStr s i 8).getD j ' ' := by
      rw [List.getD_eq_getElem?_getD, List.getElem?_eq_getElem hj1]
      rfl
    have e2 : (rotWin r)[j] = (rotWin r).getD j ' ' := by
      rw [List.getD_eq_getElem?_getD, List.getElem?_eq_getElem hj2]
      rfl
    rw [e1, e2, hslice_getD j hj, rotWin_getD r j hj]
    congr 1
    omega

theorem countMod (r : Nat) (hr : r < 4) :
    ∀ m, ((List.range (4 * m)).filter (fun i => decide (i % 4 = r))).length = m := by
  intro m
  induction m with
  | zero => simp
  | succ m ih =>
    have h4 : 4 * (m + 1) = 4 * m + 4 := by ring
    rw [h4, List.range_add, List.filter_append, List.length_append, ih]
    have hlist : (List.range 4).map (4 * m + ·) = [4 * m, 4 * m + 1, 4 * m + 2, 4 * m + 3] := by
      rfl
    rw [hlist]
    have e0 : (4 * m) % 4 = 0 := by omega
    have e1 : (4 * m + 1) % 4 = 1 := by omega
    have e2 : (4 * m + 2) % 4 = 2 := by omega
    have e3 : (4 * m + 3) % 4 = 3 := by omega
    simp only [List.filter_cons, List.filter_nil, e0, e1, e2, e3]
    interval_cases r <;> simp

theorem rot_positions_length (n r : Nat) (hr : r < 4) (hn : 2 ≤ n) :
    ((List.range (4 * n - 8)).filter
        (fun i => decide (sliceStr (pyRepeat ['A', 'C', 'G', 'T'] n) i 8 = rotWin r))).length
      = n - 2 := by
  have hcongr : (List.range (4 * n - 8)).filter
        (fun i => decide (sliceStr (pyRepeat ['A', 'C', 'G', 'T'] n) i 8 = rotWin r))
      = (List.range (4 * n - 8)).filter (fun i => decide (i % 4 = r)) := by
    apply List.filter_congr
    intro i hi
    rw [List.mem_range] at hi
    have hi8 : i + 8 ≤ 4 * n := by omega
    simp only [decide_eq_decide]
    exact slice_eq_rotWin_iff n i r hr hi8
  rw [hcongr, show 4 * n - 8 = 4 * (n - 2) from by omega, countMod r hr]

theorem pyCountAux_match (s k : PyStr) (fuel i : Nat) (hle : i + k.length ≤ s.length)
    (hm : sliceStr s i k.length = k) :
    pyCountAux s k (fuel + 1) i = 1 + pyCountAux s k fuel (i + k.length) := by
  simp [pyCountAux, hle, hm]

theorem pyCountAux_skip (s k : PyStr) (fuel i : Nat) (hle : i + k.length ≤ s.length)
    (hm : sliceStr s i k.length ≠ k) :
    pyCountAux s k (fuel + 1) i = pyCountAux s k fuel (i + 1) := by
  simp [pyCountAux, hle, hm]

theorem pyCount_rotWin_gt_one (r : Nat) (hr : r < 2) :
    1 < pyCount (pyRepeat ['A', 'C', 'G', 'T'] 1000) (rotWin r) := by
  set s := pyRepeat ['A', 'C', 'G', 'T'] 1000 with hs
  have hslen : s.length = 4000 := acgtRep_length 1000
  have hklen : (rotWin r).length = 8 := rotWin_length r
  have hcount : pyCount s (rotWin r) = pyCountAux s (rotWin r) 4001 0 := by
    rw [pyCount, if_neg (by rw [hklen]; omega), hslen]
  rw [hcount]
  have hmatch : ∀ i, i % 4 = r → i + 8 ≤ 4000 →
      sliceStr s i 8 = rotWin r := fun i h1 h2 =>
    (slice_eq_rotWin_iff 1000 i r (by omega) (by omega)).mpr h1
  have hskip : ∀ i, i % 4 ≠ r → i + 8 ≤ 4000 →
      sliceStr s i 8 ≠ rotWin r := fun i h1 h2 hc =>
    h1 ((slice_eq_rotWin_iff 1000 i r (by omega) (by omega)).mp hc)
  interval_cases r
  · have s1 : pyCountAux s (rotWin 0) 4001 0
        = 1 + pyCountAux s (rotWin 0) 4000 8 := by
      have := pyCountAux_match s (rotWin 0) 4000 0
        (by rw [hklen, hslen]; omega) (by rw [hklen]; exact hmatch 0 (by omega) (by omega))
      simpa using this
    have s2 : pyCountAux s (rotWin 0) 4000 8
        = 1 + pyCountAux s (rotWin 0) 3999 16 := by
      have := pyCountAux_match s (rotWin 0) 3999 8
        (by rw [hklen, hslen]; omega) (by rw [hklen]; exact hmatch 8 (by omega) (by omega))
      simpa using this
    rw [s1, s2]
    omega
  · have s1 : pyCountAux s (rotWin 1) 4001 0
        = pyCountAux s (rotWin 1) 4000 1 := by
      have := pyCountAux_skip s (rotWin 1) 4000 0
        (by rw [hklen, hslen]; omega) (by rw [hklen]; exact hskip 0 (by omega) (by omega))
      simpa using this
    have s2 : pyCountAux s (rotWin 1) 4000 1
        = 1 + pyCountAux s (rotWin 1) 3999 9 := by
      have := pyCountAux_match s (rotWin 1) 3999 1
        (by rw [hklen, hslen]; omega) (by rw [hklen]; exact hmatch 1 (by omega) (by omega))
      simpa using this
    have s3 : pyCountAux s (rotWin 1) 3999 9
        = 1 + pyCountAux s (rotWin 1) 3998 17 := by
      have := pyCountAux_match s (rotWin 1) 3998 9
        (by rw [hklen, hslen]; omega) (by rw [hklen]; exact hmatch 9 (by omega) (by omega))
      simpa using this
    rw [s1, s2, s3]
    omega

theorem sum_lengths_ge_of_mem (l : PatDict) (k : PyStr) (v : List Nat)
    (h : (k, v) ∈ l) : v.length ≤ (l.map (fun kv => kv.2.length)).sum := by
  induction l with
  | nil => simp at h
  | cons kv0 rest ih =>
    rw [List.map_cons, List.sum_cons]
    rcases List.mem_cons.mp h with rfl | hmem
    · simp
    · have := ih hmem
      omega

theorem sum_lengths_ge_two (l : PatDict) (hnd : (dKeys l).Nodup)
    (k1 : PyStr) (v1 : List Nat) (k2 : PyStr) (v2 : List Nat)
    (h1 : (k1, v1) ∈ l) (h2 : (k2, v2) ∈ l) (hne : k1 ≠ k2) :
    v1.length + v2.length ≤ (l.map (fun kv => kv.2.length)).sum := by
  induction l with
  | nil => simp at h1
  | cons kv0 rest ih =>
    obtain ⟨k0, v0⟩ := kv0
    rw [dKeys_cons, List.nodup_cons] at hnd
    simp only [List.map_cons, List.sum_cons]
    rcases List.mem_cons.mp h1 with heq1 | hm1
    · have hk1 : k1 = k0 := congrArg Prod.fst heq1
      have hv1 : v1 = v0 := congrArg Prod.snd heq1
      rcases List.mem_cons.mp h2 with heq2 | hm2
      · have hk2 : k2 = k0 := congrArg Prod.fst heq2
        exact absurd (hk1.trans hk2.symm) hne
      · have hs2 := sum_lengths_ge_of_mem rest k2 v2 hm2
        rw [hv1]
        omega
    · rcases List.mem_cons.mp h2 with heq2 | hm2
      · have hv2 : v2 = v0 := congrArg Prod.snd heq2
        have hs1 := sum_lengths_ge_of_mem rest k1 v1 hm1
        rw [hv2]
        omega
      · have := ih hnd.2 hm1 hm2
        omega

theorem findPatterns_keys_nodup (s : PyStr) : (dKeys (findPatterns s)).Nodup := by
  have hsub : List.Sublist (findPatterns s) (builtDict s) := List.filter_sublist _
  exact (builtDict_nodup s).sublist (hsub.map Prod.fst)

/-- C9 counterexample — the claim as stated is false for the input
`"ACGT" * 1000`: neither `"ACGT"` nor any rotation of it is a key of
the returned pattern map (every key has length in `[8, 32]`, while
`"ACGT"` and its rotations have length 4). -/
theorem c9_counterexample_no_length_four_key :
    ¬ ∃ (v : List Nat) (k : PyStr),
        (k = ['A', 'C', 'G', 'T'] ∨ k = ['C', 'G', 'T', 'A']
          ∨ k = ['G', 'T', 'A', 'C'] ∨ k = ['T', 'A', 'C', 'G'])
        ∧ (k, v) ∈ findPatterns (pyRepeat ['A', 'C', 'G', 'T'] 1000) := by
  rintro ⟨v, k, hk, hmem⟩
  have h8 := ((findPatterns_mem_iff _ _ _).mp hmem).1
  rcases hk with rfl | rfl | rfl | rfl <;> simp at h8

/-- C9 amended — for the periodic input `"ACGT" * 1000`, the detector
finds the DOUBLED pattern `"ACGTACGT"` (the length-8 window of the
period-4 repeat; keys shorter than 8 cannot occur) among the retained
patterns with more than 2 recorded positions, and
`is_highly_repetitive` returns true on that input. -/
theorem c9_doubled_pattern_and_repetitive :
    (∃ v, (['A', 'C', 'G', 'T', 'A', 'C', 'G', 'T'], v)
        ∈ findPatterns (pyRepeat ['A', 'C', 'G', 'T'] 1000) ∧ 2 < v.length)
    ∧ isHighlyRepetitive (pyRepeat ['A', 'C', 'G', 'T'] 1000) = true := by
  set s := pyRepeat ['A', 'C', 'G', 'T'] 1000 with hs
  have hslen : s.length = 4000 := acgtRep_length 1000
  have hvlen : ∀ r, r < 4 →
      ((List.range (s.length - (rotWin r).length)).filter
          (fun i => decide (sliceStr s i (rotWin r).length = rotWin r))).length = 998 := by
    intro r hr
    have h1 : s.length - 8 = 4 * 1000 - 8 := by rw [hslen]
    have h2 := rot_positions_length 1000 r hr (by omega)
    rw [rotWin_length, h1, hs, h2]
  have hmem : ∀ r, r < 2 →
      (rotWin r,
        (List.range (s.length - (rotWin r).length)).filter
          (fun i => decide (sliceStr s i (rotWin r).length = rotWin r)))
        ∈ findPatterns s := by
    intro r hr
    apply (findPatterns_mem_iff s (rotWin r) _).mpr
    refine ⟨by rw [rotWin_length], by rw [rotWin_length]; omega,
      pyCount_rotWin_gt_one r hr, rfl, ?_⟩
    rw [hvlen r (by omega)]
    omega
  constructor
  · refine ⟨(List.range (s.length - (rotWin 0).length)).filter
        (fun i => decide (sliceStr s i (rotWin 0).length = rotWin 0)), ?_, ?_⟩
    · have h0 : rotWin 0 = ['A', 'C', 'G', 'T', 'A', 'C', 'G', 'T'] := by decide
      have := hmem 0 (by omega)
      rw [h0] at this
      exact this
    · rw [hvlen 0 (by omega)]
      omega
  · have hne : rotWin 0 ≠ rotWin 1 := by decide
    have hsum := sum_lengths_ge_two (findPatterns s) (findPatterns_keys_nodup s)
      (rotWin 0) _ (rotWin 1) _ (hmem 0 (by omega)) (hmem 1 (by omega)) hne
    rw [hvlen 0 (by omega), hvlen 1 (by omega)] at hsum
    have htot : 1996 ≤ totalRepeats s := by
      unfold totalRepeats
      omega
    unfold isHighlyRepetitive
    apply decide_eq_true
    rw [hslen]
    have hcast : (1996 : ℚ) ≤ (totalRepeats s : ℚ) := by
      exact_mod_cast htot
    have : ((4000 : Nat) : ℚ) * (3 / 10) = 1200 := by norm_num
    rw [this]
    linarith

/-! ### Checksum verification in decompress (claim C4) -/

/-- Placeholder metadata record used only as a `getD` default in
statements (never reached when the index is in range). -/
def mdDefault : ChunkMd :=
  { original_length := 0, patterns := [], checksum := 0, quality_scores := [],
    compression_type := "adaptive", error_rate := 0 }

/-- Byte offset of chunk `j` inside the decoded buffer: the sum of the
stored `original_length` fields of all earlier chunks (this is how the
cursor of `decompress` advances). -/
def mdOffset (mdl : List ChunkMd) (j : Nat) : Nat :=
  ((mdl.take j).map ChunkMd.original_length).sum

theorem mdOffset_zero (mdl : List ChunkMd) : mdOffset mdl 0 = 0 := rfl

theorem mdOffset_succ_cons (m : ChunkMd) (rest : List ChunkMd) (j : Nat) :
    mdOffset (m :: rest) (j + 1) = m.original_length + mdOffset rest j := by
  simp [mdOffset, List.take_succ_cons]

theorem decodeChunks_sound (inflate : List Nat → Option (List Nat)) (decoded : List Nat) :
    ∀ (mdl : List ChunkMd) (pos : Nat) (out : List Nat),
      decodeChunks inflate decoded pos mdl = .ok out →
      ∀ j, j < mdl.length →
        ∃ d, inflate (sliceStr decoded (pos + mdOffset mdl j)
              ((mdl.getD j mdDefault).original_length)) = some d
          ∧ crc32 d = (mdl.getD j mdDefault).checksum := by
  intro mdl
  induction mdl with
  | nil => intro pos out _ j hj; simp at hj
  | cons m rest ih =>
    intro pos out h j hj
    have hget0 : (m :: rest).getD 0 mdDefault = m := rfl
    simp only [decodeChunks] at h
    cases hin : inflate (sliceStr decoded pos m.original_length) with
    | none => rw [hin] at h; exact absurd h (by simp)
    | some d =>
      rw [hin] at h
      dsimp only at h
      by_cases hcrc : crc32 d ≠ m.checksum
      · rw [if_pos hcrc] at h; exact absurd h (by simp)
      · rw [if_neg hcrc] at h
        push_neg at hcrc
        cases hrest : decodeChunks inflate decoded (pos + m.original_length) rest with
        | error e => rw [hrest] at h; exact absurd h (by simp)
        | ok r =>
          match j with
          | 0 =>
            refine ⟨d, ?_, ?_⟩
            · rw [mdOffset_zero, Nat.add_zero, hget0]
              exact hin
            · rw [hget0]
              exact hcrc
          | j + 1 =>
            have hgetS : (m :: rest).getD (j + 1) mdDefault = rest.getD j mdDefault := rfl
            have hrec := ih (pos + m.original_length) r hrest j
              (by simp only [List.length_cons] at hj; omega)
            rw [mdOffset_succ_cons, ← Nat.add_assoc, hgetS]
            exact hrec

theorem decodeChunks_first_mismatch (inflate : List Nat → Option (List Nat))
    (decoded : List Nat) :
    ∀ (mdl : List ChunkMd) (pos j : Nat), j < mdl.length →
      ∀ d : List Nat,
        (∀ j2, j2 < j → ∃ d2,
          inflate (sliceStr decoded (pos + mdOffset mdl j2)
              ((mdl.getD j2 mdDefault).original_length)) = some d2
            ∧ crc32 d2 = (mdl.getD j2 mdDefault).checksum) →
        inflate (sliceStr decoded (pos + mdOffset mdl j)
            ((mdl.getD j mdDefault).original_length)) = some d →
        crc32 d ≠ (mdl.getD j mdDefault).checksum →
        decodeChunks inflate decoded pos mdl = .error .checksumMismatch := by
  intro mdl
  induction mdl with
  | nil => intro pos j hj; simp at hj
  | cons m rest ih =>
    intro pos j hj d hprev hin hcrc
    have hget0 : (m :: rest).getD 0 mdDefault = m := rfl
    match j with
    | 0 =>
      rw [mdOffset_zero, Nat.add_zero, hget0] at hin
      rw [hget0] at hcrc
      simp only [decodeChunks]
      rw [hin]
      dsimp only
      rw [if_pos hcrc]
    | j + 1 =>
      have hgetS : (m :: rest).getD (j + 1) mdDefault = rest.getD j mdDefault := rfl
      obtain ⟨d0, hin0, hcrc0⟩ := hprev 0 (by omega)
      rw [mdOffset_zero, Nat.add_zero, hget0] at hin0
      rw [hget0] at hcrc0
      simp only [decodeChunks]
      rw [hin0]
      dsimp only
      rw [if_neg (by rw [hcrc0]; exact fun hc => hc rfl)]
      have hrec := ih (pos + m.original_length) j
        (by simp only [List.length_cons] at hj; omega) d
        (fun j2 hj2 => by
          have hp := hprev (j2 + 1) (by omega)
          rw [mdOffset_succ_cons, ← Nat.add_assoc] at hp
          exact hp)
        (by rw [mdOffset_succ_cons, ← Nat.add_assoc, hgetS] at hin; exact hin)
        (by rw [hgetS] at hcrc; exact hcrc)
      rw [hrec]

/-- C4 — confirmed: during `decompress`, each chunk's decompressed
bytes are CRC-32-checked against the stored checksum.  First part:
whenever `decompress` succeeds, every chunk decompressed along the
cursor walk has a recomputed CRC-32 equal to its stored checksum.
Second part: if the chunks before position `j` verify and chunk `j`
decompresses to bytes whose CRC-32 differs from the stored checksum,
`decompress` returns the ChecksumMismatch error — the whole decode
aborts and no partial result is produced. -/
theorem c4_decompress_checksum_verification (inflate : List Nat → Option (List Nat))
    (blob : List Nat) (mdl : List ChunkMd) :
    (∀ out, pyDecompress inflate blob mdl = .ok out →
      ∃ decoded, b64decode blob = .ok decoded ∧
        ∀ j, j < mdl.length →
          ∃ d, inflate (sliceStr decoded (mdOffset mdl j)
                ((mdl.getD j mdDefault).original_length)) = some d
            ∧ crc32 d = (mdl.getD j mdDefault).checksum)
    ∧ (∀ decoded, b64decode blob = .ok decoded →
        ∀ j, j < mdl.length →
          ∀ d : List Nat,
            (∀ j2, j2 < j → ∃ d2,
              inflate (sliceStr decoded (mdOffset mdl j2)
                  ((mdl.getD j2 mdDefault).original_length)) = some d2
                ∧ crc32 d2 = (mdl.getD j2 mdDefault).checksum) →
            inflate (sliceStr decoded (mdOffset mdl j)
                ((mdl.getD j mdDefault).original_length)) = some d →
            crc32 d ≠ (mdl.getD j mdDefault).checksum →
            pyDecompress inflate blob mdl = .error .checksumMismatch) := by
  constructor
  · intro out h
    unfold pyDecompress at h
    cases hb : b64decode blob with
    | error e => rw [hb] at h; exact absurd h (by simp)
    | ok decoded =>
      rw [hb] at h
      refine ⟨decoded, rfl, fun j hj => ?_⟩
      have := decodeChunks_sound inflate decoded mdl 0 out h j hj
      simpa using this
  · intro decoded hb j hj d hprev hin hcrc
    unfold pyDecompress
    rw [hb]
    have := decodeChunks_first_mismatch inflate decoded mdl 0 j hj d
      (fun j2 hj2 => by simpa using hprev j2 hj2) (by simpa using hin) hcrc
    exact this

/-- A one-chunk metadata record whose stored checksum (0) cannot match
the CRC-32 of the decompressed bytes `[7]`. -/
def mdTest : ChunkMd :=
  { original_length := 1, patterns := [], checksum := 0, quality_scores := [],
    compression_type := "adaptive", error_rate := 0 }

theorem c4_decompress_checksum_verification_witness :
    pyDecompress (fun _ => some [7]) [] [mdTest] = .error .checksumMismatch :=
  (c4_decompress_checksum_verification (fun _ => some [7]) [] [mdTest]).2
    [] rfl 0 (by decide) [7]
    (fun j2 hj2 => absurd hj2 (Nat.not_lt_zero j2)) rfl (by decide)

theorem metadataList_seqA100 :
    metadataList (1024 * 1024) seqA100 = [chunkMd seqA100] := by
  have hne : seqA100 ≠ [] := by simp [seqA100]
  have hle : seqA100.length ≤ 1024 * 1024 := by simp [seqA100]
  rw [metadataList, chunksOf_single _ _ hne hle, List.map_cons, List.map_nil]

/-- The 125 bytes `_encode_sequence` produces for `"A" * 100`: 25 zero
bytes (200 zero bits of 2-bit A codes) followed by the quality scores
30, 35, then 38 repeated. -/
def encA100lit : List Nat := [0, 0, 0, 0, 0, 0, 0, 0, 0, 0, 0, 0, 0, 0, 0, 0, 0, 0, 0, 0, 0, 0, 0, 0, 0, 30, 35, 38, 38, 38, 38, 38, 38, 38, 38, 38, 38, 38, 38, 38, 38, 38, 38, 38, 38, 38, 38, 38, 38, 38, 38, 38, 38, 38, 38, 38, 38, 38, 38, 38, 38, 38, 38, 38, 38, 38, 38, 38, 38, 38, 38, 38, 38, 38, 38, 38, 38, 38, 38, 38, 38, 38, 38, 38, 38, 38, 38, 38, 38, 38, 38, 38, 38, 38, 38, 38, 38, 38, 38, 38, 38, 38, 38, 38, 38, 38, 38, 38, 38, 38, 38, 38, 38, 38, 38, 38, 38, 38, 38, 38, 38, 38, 38, 38, 38]

theorem foldl_crc_step (b : Nat) (l : List Nat) (c v : Nat)
    (h : crcStepBit^[8] (c ^^^ b) = v) :
    (b :: l).foldl (fun c b => crcStepBit^[8] (c ^^^ b)) c
      = l.foldl (fun c b => crcStepBit^[8] (c ^^^ b)) v := by
  rw [List.foldl_cons]
  exact congrArg (fun x => l.foldl (fun c b => crcStepBit^[8] (c ^^^ b)) x) h

set_option maxRecDepth 4000 in
theorem encodeSequence_seqA100 : encodeSequence seqA100 = encA100lit := by
  rw [encodeSequence_eq_pack seqA100, combinedBits_length seqA100]
  have hl : seqA100.length = 100 := by simp [seqA100]
  rw [hl]
  norm_num
  decide

theorem crc32_a100_ascii : crc32 (List.replicate 100 65) = 2509749389 := by
  simp only [crc32]
  rw [show (List.replicate 100 65 : List Nat) = [65, 65, 65, 65, 65, 65, 65, 65, 65, 65, 65, 65, 65, 65, 65, 65, 65, 65, 65, 65, 65, 65, 65, 65, 65, 65, 65, 65, 65, 65, 65, 65, 65, 65, 65, 65, 65, 65, 65, 65, 65, 65, 65, 65, 65, 65, 65, 65, 65, 65, 65, 65, 65, 65, 65, 65, 65, 65, 65, 65, 65, 65, 65, 65, 65, 65, 65, 65, 65, 65, 65, 65, 65, 65, 65, 65, 65, 65, 65, 65, 65, 65, 65, 65, 65, 65, 65, 65, 65, 65, 65, 65, 65, 65, 65, 65, 65, 65, 65, 65] from by decide]
  rw [foldl_crc_step 65 _ 4294967295 740712820 (by decide)]
  rw [foldl_crc_step 65 _ 740712820 1453318722 (by decide)]
  rw [foldl_crc_step 65 _ 1453318722 2573192792 (by decide)]
  rw [foldl_crc_step 65 _ 2573192792 1693644558 (by decide)]
  rw [foldl_crc_step 65 _ 1693644558 3859263222 (by decide)]
  rw [foldl_crc_step 65 _ 3859263222 1440948609 (by decide)]
  rw [foldl_crc_step 65 _ 1440948609 2603688337 (by decide)]
  rw [foldl_crc_step 65 _ 2603688337 2252923893 (by decide)]
  rw [foldl_crc_step 65 _ 2252923893 3431612278 (by decide)]
  rw [foldl_crc_step 65 _ 3431612278 3094425392 (by decide)]
  rw [foldl_crc_step 65 _ 3094425392 666513541 (by decide)]
  rw [foldl_crc_step 65 _ 666513541 2620308633 (by decide)]
  rw [foldl_crc_step 65 _ 2620308633 2291430490 (by decide)]
  rw [foldl_crc_step 65 _ 2291430490 2330811800 (by decide)]
  rw [foldl_crc_step 65 _ 2330811800 4286940973 (by decide)]
  rw [foldl_crc_step 65 _ 4286940973 1157343476 (by decide)]
  rw [foldl_crc_step 65 _ 1157343476 3142565035 (by decide)]
  rw [foldl_crc_step 65 _ 3142565035 1080313050 (by decide)]
  rw [foldl_crc_step 65 _ 1080313050 1738354312 (by decide)]
  rw [foldl_crc_step 65 _ 1738354312 3806324538 (by decide)]
  rw [foldl_crc_step 65 _ 3806324538 3342169939 (by decide)]
  rw [foldl_crc_step 65 _ 3342169939 4085138495 (by decide)]
  rw [foldl_crc_step 65 _ 4085138495 3075351167 (by decide)]
  rw [foldl_crc_step 65 _ 3075351167 3252048777 (by decide)]
  rw [foldl_crc_step 65 _ 3252048777 2508102865 (by decide)]
  rw [foldl_crc_step 65 _ 2508102865 4036685272 (by decide)]
  rw [foldl_crc_step 65 _ 4036685272 2300817677 (by decide)]
  rw [foldl_crc_step 65 _ 2300817677 2145594890 (by decide)]
  rw [foldl_crc_step 65 _ 2145594890 3782310710 (by decide)]
  rw [foldl_crc_step 65 _ 3782310710 3464533476 (by decide)]
  rw [foldl_crc_step 65 _ 3464533476 2792544242 (by decide)]
  rw [foldl_crc_step 65 _ 2792544242 1389269217 (by decide)]
  rw [foldl_crc_step 65 _ 1389269217 3599003000 (by decide)]
  rw [foldl_crc_step 65 _ 3599003000 1607666789 (by decide)]
  rw [foldl_crc_step 65 _ 1607666789 1012676573 (by decide)]
  rw [foldl_crc_step 65 _ 1012676573 4186276696 (by decide)]
  rw [foldl_crc_step 65 _ 4186276696 1687301443 (by decide)]
  rw [foldl_crc_step 65 _ 1687301443 3999986433 (by decide)]
  rw [foldl_crc_step 65 _ 3999986433 1982999395 (by decide)]
  rw [foldl_crc_step 65 _ 1982999395 3575018447 (by decide)]
  rw [foldl_crc_step 65 _ 3575018447 181778516 (by decide)]
  rw [foldl_crc_step 65 _ 181778516 1842819411 (by decide)]
  rw [foldl_crc_step 65 _ 1842819411 4090799737 (by decide)]
  rw [foldl_crc_step 65 _ 4090799737 686910520 (by decide)]
  rw [foldl_crc_step 65 _ 686910520 703674612 (by decide)]
  rw [foldl_crc_step 65 _ 703674612 3139614267 (by decide)]
  rw [foldl_crc_step 65 _ 3139614267 2959850132 (by decide)]
  rw [foldl_crc_step 65 _ 2959850132 4127804897 (by decide)]
  rw [foldl_crc_step 65 _ 4127804897 3592465061 (by decide)]
  rw [foldl_crc_step 65 _ 3592465061 2813396683 (by decide)]
  rw [foldl_crc_step 65 _ 2813396683 231398200 (by decide)]
  rw [foldl_crc_step 65 _ 231398200 701760323 (by decide)]
  rw [foldl_crc_step 65 _ 701760323 3995579695 (by decide)]
  rw [foldl_crc_step 65 _ 3995579695 2867096554 (by decide)]
  rw [foldl_crc_step 65 _ 2867096554 1101962763 (by decide)]
  rw [foldl_crc_step 65 _ 1101962763 2521302544 (by decide)]
  rw [foldl_crc_step 65 _ 2521302544 486156644 (by decide)]
  rw [foldl_crc_step 65 _ 486156644 1259875950 (by decide)]
  rw [foldl_crc_step 65 _ 1259875950 2879006071 (by decide)]
  rw [foldl_crc_step 65 _ 2879006071 3474001852 (by decide)]
  rw [foldl_crc_step 65 _ 3474001852 3284377518 (by decide)]
  rw [foldl_crc_step 65 _ 3284377518 813055094 (by decide)]
  rw [foldl_crc_step 65 _ 813055094 3096302387 (by decide)]
  rw [foldl_crc_step 65 _ 3096302387 3199442371 (by decide)]
  rw [foldl_crc_step 65 _ 3199442371 50876817 (by decide)]
  rw [foldl_crc_step 65 _ 50876817 2261834373 (by decide)]
  rw [foldl_crc_step 65 _ 2261834373 2626672243 (by decide)]
  rw [foldl_crc_step 65 _ 2626672243 3360415318 (by decide)]
  rw [foldl_crc_step 65 _ 3360415318 2199637529 (by decide)]
  rw [foldl_crc_step 65 _ 2199637529 1697890824 (by decide)]
  rw [foldl_crc_step 65 _ 1697890824 258329334 (by decide)]
  rw [foldl_crc_step 65 _ 258329334 1426736101 (by decide)]
  rw [foldl_crc_step 65 _ 1426736101 3522063794 (by decide)]
  rw [foldl_crc_step 65 _ 3522063794 610618827 (by decide)]
  rw [foldl_crc_step 65 _ 610618827 222891891 (by decide)]
  rw [foldl_crc_step 65 _ 222891891 3369736335 (by decide)]
  rw [foldl_crc_step 65 _ 3369736335 2081699247 (by decide)]
  rw [foldl_crc_step 65 _ 2081699247 1204738890 (by decide)]
  rw [foldl_crc_step 65 _ 1204738890 2543130451 (by decide)]
  rw [foldl_crc_step 65 _ 2543130451 4079936607 (by decide)]
  rw [foldl_crc_step 65 _ 4079936607 4210824071 (by decide)]
  rw [foldl_crc_step 65 _ 4210824071 1929223062 (by decide)]
  rw [foldl_crc_step 65 _ 1929223062 415611628 (by decide)]
  rw [foldl_crc_step 65 _ 415611628 2826902255 (by decide)]
  rw [foldl_crc_step 65 _ 2826902255 835121653 (by decide)]
  rw [foldl_crc_step 65 _ 835121653 3426595172 (by decide)]
  rw [foldl_crc_step 65 _ 3426595172 1271458294 (by decide)]
  rw [foldl_crc_step 65 _ 1271458294 1431236294 (by decide)]
  rw [foldl_crc_step 65 _ 1431236294 1938380909 (by decide)]
  rw [foldl_crc_step 65 _ 1938380909 850126267 (by decide)]
  rw [foldl_crc_step 65 _ 850126267 1566224615 (by decide)]
  rw [foldl_crc_step 65 _ 1566224615 1072192621 (by decide)]
  rw [foldl_crc_step 65 _ 1072192621 854033599 (by decide)]
  rw [foldl_crc_step 65 _ 854033599 1513568415 (by decide)]
  rw [foldl_crc_step 65 _ 1513568415 1630652651 (by decide)]
  rw [foldl_crc_step 65 _ 1630652651 912423742 (by decide)]
  rw [foldl_crc_step 65 _ 912423742 3230404310 (by decide)]
  rw [foldl_crc_step 65 _ 3230404310 1856735977 (by decide)]
  rw [foldl_crc_step 65 _ 1856735977 3630399568 (by decide)]
  rw [foldl_crc_step 65 _ 3630399568 1785217906 (by decide)]
  simp only [List.foldl_nil]
  decide

theorem crc32_encA100 : crc32 (encA100lit) = 4270990880 := by
  simp only [crc32, encA100lit]
  rw [foldl_crc_step 0 _ 4294967295 771559538 (by decide)]
  rw [foldl_crc_step 0 _ 771559538 3190222080 (by decide)]
  rw [foldl_crc_step 0 _ 3190222080 12461805 (by decide)]
  rw [foldl_crc_step 0 _ 12461805 3736805603 (by decide)]
  rw [foldl_crc_step 0 _ 3736805603 970787042 (by decide)]
  rw [foldl_crc_step 0 _ 970787042 1312644700 (by decide)]
  rw [foldl_crc_step 0 _ 1312644700 1653809281 (by decide)]
  rw [foldl_crc_step 0 _ 1653809281 2598183062 (by decide)]
  rw [foldl_crc_step 0 _ 2598183062 435612497 (by decide)]
  rw [foldl_crc_step 0 _ 435612497 477468553 (by decide)]
  rw [foldl_crc_step 0 _ 477468553 2490912275 (by decide)]
  rw [foldl_crc_step 0 _ 2490912275 2217359760 (by decide)]
  rw [foldl_crc_step 0 _ 2217359760 4035688829 (by decide)]
  rw [foldl_crc_step 0 _ 4035688829 776242744 (by decide)]
  rw [foldl_crc_step 0 _ 776242744 674036760 (by decide)]
  rw [foldl_crc_step 0 _ 674036760 323269802 (by decide)]
  rw [foldl_crc_step 0 _ 323269802 907021890 (by decide)]
  rw [foldl_crc_step 0 _ 907021890 2565091506 (by decide)]
  rw [foldl_crc_step 0 _ 2565091506 636958352 (by decide)]
  rw [foldl_crc_step 0 _ 636958352 4029310066 (by decide)]
  rw [foldl_crc_step 0 _ 4029310066 3204135540 (by decide)]
  rw [foldl_crc_step 0 _ 3204135540 1473662495 (by decide)]
  rw [foldl_crc_step 0 _ 1473662495 2371869627 (by decide)]
  rw [foldl_crc_step 0 _ 2371869627 1547580895 (by decide)]
  rw [foldl_crc_step 0 _ 1547580895 372306288 (by decide)]
  rw [foldl_crc_step 30 _ 372306288 2853993646 (by decide)]
  rw [foldl_crc_step 35 _ 2853993646 2476991457 (by decide)]
  rw [foldl_crc_step 38 _ 2476991457 93582576 (by decide)]
  rw [foldl_crc_step 38 _ 93582576 1874191381 (by decide)]
  rw [foldl_crc_step 38 _ 1874191381 3217020146 (by decide)]
  rw [foldl_crc_step 38 _ 3217020146 2164369689 (by decide)]
  rw [foldl_crc_step 38 _ 2164369689 3068603540 (by decide)]
  rw [foldl_crc_step 38 _ 3068603540 634992012 (by decide)]
  rw [foldl_crc_step 38 _ 634992012 908497859 (by decide)]
  rw [foldl_crc_step 38 _ 908497859 3495309412 (by decide)]
  rw [foldl_crc_step 38 _ 3495309412 2550298252 (by decide)]
  rw [foldl_crc_step 38 _ 2550298252 916146304 (by decide)]
  rw [foldl_crc_step 38 _ 916146304 1065590165 (by decide)]
  rw [foldl_crc_step 38 _ 1065590165 1381458347 (by decide)]
  rw [foldl_crc_step 38 _ 1381458347 2472257788 (by decide)]
  rw [foldl_crc_step 38 _ 2472257788 1721065570 (by decide)]
  rw [foldl_crc_step 38 _ 1721065570 1909919977 (by decide)]
  rw [foldl_crc_step 38 _ 1909919977 195692593 (by decide)]
  rw [foldl_crc_step 38 _ 195692593 2211983311 (by decide)]
  rw [foldl_crc_step 38 _ 2211983311 3646259955 (by decide)]
  rw [foldl_crc_step 38 _ 3646259955 4133516249 (by decide)]
  rw [foldl_crc_step 38 _ 4133516249 771002366 (by decide)]
  rw [foldl_crc_step 38 _ 771002366 2284170857 (by decide)]
  rw [foldl_crc_step 38 _ 2284170857 3874191791 (by decide)]
  rw [foldl_crc_step 38 _ 3874191791 2491601149 (by decide)]
  rw [foldl_crc_step 38 _ 2491601149 295012748 (by decide)]
  rw [foldl_crc_step 38 _ 295012748 907206527 (by decide)]
  rw [foldl_crc_step 38 _ 907206527 310508431 (by decide)]
  rw [foldl_crc_step 38 _ 310508431 2937625271 (by decide)]
  rw [foldl_crc_step 38 _ 2937625271 2275916616 (by decide)]
  rw [foldl_crc_step 38 _ 2275916616 2861427684 (by decide)]
  rw [foldl_crc_step 38 _ 2861427684 1975529079 (by decide)]
  rw [foldl_crc_step 38 _ 1975529079 471441740 (by decide)]
  rw [foldl_crc_step 38 _ 471441740 2910556647 (by decide)]
  rw [foldl_crc_step 38 _ 2910556647 3972958647 (by decide)]
  rw [foldl_crc_step 38 _ 3972958647 2279894363 (by decide)]
  rw [foldl_crc_step 38 _ 2279894363 775154156 (by decide)]
  rw [foldl_crc_step 38 _ 775154156 2074024007 (by decide)]
  rw [foldl_crc_step 38 _ 2074024007 986631894 (by decide)]
  rw [foldl_crc_step 38 _ 986631894 3179756754 (by decide)]
  rw [foldl_crc_step 38 _ 3179756754 3127750969 (by decide)]
  rw [foldl_crc_step 38 _ 3127750969 2377277508 (by decide)]
  rw [foldl_crc_step 38 _ 2377277508 2737943060 (by decide)]
  rw [foldl_crc_step 38 _ 2737943060 3363070002 (by decide)]
  rw [foldl_crc_step 38 _ 3363070002 437428253 (by decide)]
  rw [foldl_crc_step 38 _ 437428253 2970745732 (by decide)]
  rw [foldl_crc_step 38 _ 2970745732 946459455 (by decide)]
  rw [foldl_crc_step 38 _ 946459455 1683210515 (by decide)]
  rw [foldl_crc_step 38 _ 1683210515 1456969698 (by decide)]
  rw [foldl_crc_step 38 _ 1456969698 2623525182 (by decide)]
  rw [foldl_crc_step 38 _ 2623525182 334546823 (by decide)]
  rw [foldl_crc_step 38 _ 334546823 2713871289 (by decide)]
  rw [foldl_crc_step 38 _ 2713871289 1611746486 (by decide)]
  rw [foldl_crc_step 38 _ 1611746486 4033839624 (by decide)]
  rw [foldl_crc_step 38 _ 4033839624 3693503053 (by decide)]
  rw [foldl_crc_step 38 _ 3693503053 3669794482 (by decide)]
  rw [foldl_crc_step 38 _ 3669794482 4156091331 (by decide)]
  rw [foldl_crc_step 38 _ 4156091331 3499601436 (by decide)]
  rw [foldl_crc_step 38 _ 3499601436 3336326684 (by decide)]
  rw [foldl_crc_step 38 _ 3336326684 3335128572 (by decide)]
  rw [foldl_crc_step 38 _ 3335128572 1723920847 (by decide)]
  rw [foldl_crc_step 38 _ 1723920847 3652229677 (by decide)]
  rw [foldl_crc_step 38 _ 3652229677 2534107410 (by decide)]
  rw [foldl_crc_step 38 _ 2534107410 556007388 (by decide)]
  rw [foldl_crc_step 38 _ 556007388 1565079805 (by decide)]
  rw [foldl_crc_step 38 _ 1565079805 291258980 (by decide)]
  rw [foldl_crc_step 38 _ 291258980 2562948350 (by decide)]
  rw [foldl_crc_step 38 _ 2562948350 2291177882 (by decide)]
  rw [foldl_crc_step 38 _ 2291177882 3261034302 (by decide)]
  rw [foldl_crc_step 38 _ 3261034302 330221369 (by decide)]
  rw [foldl_crc_step 38 _ 330221369 2367398706 (by decide)]
  rw [foldl_crc_step 38 _ 2367398706 441962462 (by decide)]
  rw [foldl_crc_step 38 _ 441962462 3011259873 (by decide)]
  rw [foldl_crc_step 38 _ 3011259873 95628094 (by decide)]
  rw [foldl_crc_step 38 _ 95628094 325659517 (by decide)]
  rw [foldl_crc_step 38 _ 325659517 4239057239 (by decide)]
  rw [foldl_crc_step 38 _ 4239057239 671017803 (by decide)]
  rw [foldl_crc_step 38 _ 671017803 858055438 (by decide)]
  rw [foldl_crc_step 38 _ 858055438 898010137 (by decide)]
  rw [foldl_crc_step 38 _ 898010137 3058936753 (by decide)]
  rw [foldl_crc_step 38 _ 3058936753 1859999052 (by decide)]
  rw [foldl_crc_step 38 _ 1859999052 2903069971 (by decide)]
  rw [foldl_crc_step 38 _ 2903069971 1444859254 (by decide)]
  rw [foldl_crc_step 38 _ 1444859254 1799180089 (by decide)]
  rw [foldl_crc_step 38 _ 1799180089 2372087994 (by decide)]
  rw [foldl_crc_step 38 _ 2372087994 4180982879 (by decide)]
  rw [foldl_crc_step 38 _ 4180982879 690027812 (by decide)]
  rw [foldl_crc_step 38 _ 690027812 3995550161 (by decide)]
  rw [foldl_crc_step 38 _ 3995550161 590823678 (by decide)]
  rw [foldl_crc_step 38 _ 590823678 2284547494 (by decide)]
  rw [foldl_crc_step 38 _ 2284547494 3979389005 (by decide)]
  rw [foldl_crc_step 38 _ 3979389005 3666708600 (by decide)]
  rw [foldl_crc_step 38 _ 3666708600 2349461883 (by decide)]
  rw [foldl_crc_step 38 _ 2349461883 357967032 (by decide)]
  rw [foldl_crc_step 38 _ 357967032 396552295 (by decide)]
  rw [foldl_crc_step 38 _ 396552295 30200814 (by decide)]
  rw [foldl_crc_step 38 _ 30200814 2512291409 (by decide)]
  rw [foldl_crc_step 38 _ 2512291409 3472120345 (by decide)]
  rw [foldl_crc_step 38 _ 3472120345 3064519015 (by decide)]
  rw [foldl_crc_step 38 _ 3064519015 23976415 (by decide)]
  simp only [List.foldl_nil]
  decide

/-- C1 — the claim fails on the code even in its single-chunk scope.
For the valid single-chunk input `"A" * 100`:
(a) `compress` itself never returns (it raises the TypeError of C2
while building its stats record), and
(b) even taking the blob and metadata the compression pipeline builds,
NO behaviour of the byte decompressor and no blob can make `decompress`
return the original sequence: the single chunk's stored checksum is the
CRC-32 of the packed 2-bit+quality encoding (125 bytes), the inverse of
that encoding is never applied during decode, and a successful decode
returning `"A" * 100` would force the decompressed bytes to be the 100
ASCII bytes of the sequence, whose CRC-32 (2509749389) differs from the
stored one (4270990880) — so the checksum comparison (or an earlier
step) always aborts. -/
theorem c1_roundtrip_fails_single_chunk (deflate : List Nat → List Nat)
    (inflate : List Nat → Option (List Nat)) :
    pyCompress deflate (1024 * 1024) seqA100 = .error .typeError
    ∧ ∀ blob, pyDecompress inflate blob (metadataList (1024 * 1024) seqA100)
        ≠ .ok (List.replicate 100 65) := by
  constructor
  · exact compress_valid_typeError deflate _ _ (by decide)
  · intro blob hcon
    rw [metadataList_seqA100] at hcon
    unfold pyDecompress at hcon
    cases hb : b64decode blob with
    | error e => rw [hb] at hcon; exact absurd hcon (by simp)
    | ok decoded =>
      rw [hb] at hcon
      simp only [decodeChunks] at hcon
      cases hin : inflate (sliceStr decoded 0 (chunkMd seqA100).original_length) with
      | none => rw [hin] at hcon; exact absurd hcon (by simp)
      | some d =>
        rw [hin] at hcon
        dsimp only at hcon
        by_cases hcrc : crc32 d ≠ (chunkMd seqA100).checksum
        · rw [if_pos hcrc] at hcon; exact absurd hcon (by simp)
        · rw [if_neg hcrc] at hcon
          push_neg at hcrc
          have hd : d = List.replicate 100 65 := by
            simpa using hcon
          rw [hd] at hcrc
          have hck : (chunkMd seqA100).checksum = crc32 (encodeSequence seqA100) := rfl
          rw [hck, encodeSequence_seqA100, crc32_encA100, crc32_a100_ascii] at hcrc
          exact absurd hcrc (by decide)

theorem c1_roundtrip_fails_single_chunk_witness :
    pyDecompress (fun _ => none) [] (metadataList (1024 * 1024) seqA100)
      ≠ .ok (List.replicate 100 65) :=
  (c1_roundtrip_fails_single_chunk id (fun _ => none)).2 []
